import Mathlib

/-!
Verification of the road-network routing core (graph cost model, A* and
Dijkstra searches, edge densification, map-loader accessors).

The Python sources are shallowly embedded: floats become exact rationals,
dictionaries become functions into `Option`, raised exceptions become
`Except.error` / `Option.none`, and the unbounded `while` loops of the two
searches become fuel-indexed recursions.  `String → Option ℚ` parameters
named `pf` stand for Python's `float(str)` conversion, over which the whole
development is parametric; `parseQ` below is a concrete instance used for
witnesses.
-/

namespace AstarMap

/-! ## Attribute values

Edge attributes in the source are arbitrary Python objects; the cost model
only distinguishes numbers, strings and list/tuple containers (anything
else is rejected by `_coerce_float`). -/

inductive Attr : Type where
  | num (q : ℚ)
  | str (s : String)
  | list (items : List Attr)

mutual

def Attr.deq : (a b : Attr) → Decidable (a = b)
  | .num a, .num b =>
    match decEq a b with
    | isTrue h => isTrue (by rw [h])
    | isFalse h => isFalse (fun hc => by cases hc; exact h rfl)
  | .num _, .str _ => isFalse nofun
  | .num _, .list _ => isFalse nofun
  | .str _, .num _ => isFalse nofun
  | .str a, .str b =>
    match decEq a b with
    | isTrue h => isTrue (by rw [h])
    | isFalse h => isFalse (fun hc => by cases hc; exact h rfl)
  | .str _, .list _ => isFalse nofun
  | .list _, .num _ => isFalse nofun
  | .list _, .str _ => isFalse nofun
  | .list a, .list b =>
    match Attr.deqList a b with
    | isTrue h => isTrue (by rw [h])
    | isFalse h => isFalse (fun hc => by cases hc; exact h rfl)

def Attr.deqList : (a b : List Attr) → Decidable (a = b)
  | [], [] => isTrue rfl
  | [], _ :: _ => isFalse nofun
  | _ :: _, [] => isFalse nofun
  | x :: xs, y :: ys =>
    match Attr.deq x y, Attr.deqList xs ys with
    | isTrue h1, isTrue h2 => isTrue (by rw [h1, h2])
    | isFalse h1, _ => isFalse (fun hc => by cases hc; exact h1 rfl)
    | _, isFalse h2 => isFalse (fun hc => by cases hc; exact h2 rfl)

end

instance : DecidableEq Attr := Attr.deq

/-- Python truthiness for the attribute values above: `0`, `""` and `[]`
are falsy. -/
def Attr.truthy : Attr → Bool
  | .num q => q != 0
  | .str s => s != ""
  | .list l => !l.isEmpty

/-- `a or b` on optional attribute values (`data.get("speed_kph") or
data.get("maxspeed")`): a missing or falsy first operand yields the
second. -/
def pyOr (a b : Option Attr) : Option Attr :=
  match a with
  | some v => if v.truthy then some v else b
  | none => b

/-- `value or fallback` on a float (`self._edge_speed_m_s(data) or
self._max_speed_m_s`): `None` and `0.0` are falsy. -/
def pyOrQ (a : Option ℚ) (b : ℚ) : ℚ :=
  match a with
  | some v => if v = 0 then b else v
  | none => b

/-! ### String primitives

The string operations the source uses (`strip`, `lower`, `replace`,
`split`, `in`) are modelled by structurally recursive functions on the
character list of the string, mirroring Python's semantics on the ASCII
data the cost model handles. -/

/-- Python `str.strip` whitespace. -/
def isSpaceChar (c : Char) : Bool :=
  c = ' ' ∨ c = '\t' ∨ c = '\n' ∨ c = '\r' ∨ c = '\x0b' ∨ c = '\x0c'

def trimList (cs : List Char) : List Char :=
  ((cs.dropWhile isSpaceChar).reverse.dropWhile isSpaceChar).reverse

/-- `s.strip()`. -/
def pyStrip (s : String) : String := String.mk (trimList s.toList)

/-- ASCII lowering of one character. -/
def asciiLower (c : Char) : Char :=
  if 65 ≤ c.toNat ∧ c.toNat ≤ 90 then Char.ofNat (c.toNat + 32) else c

/-- `s.lower()` (the strings reaching it are ASCII). -/
def pyLower (s : String) : String := String.mk (s.toList.map asciiLower)

def isPrefixList : List Char → List Char → Bool
  | [], _ => true
  | _ :: _, [] => false
  | p :: ps, c :: cs => p = c && isPrefixList ps cs

def containsList (pat : List Char) : List Char → Bool
  | [] => isPrefixList pat []
  | c :: cs => isPrefixList pat (c :: cs) || containsList pat cs

/-- `pat in s`. -/
def pyContains (s pat : String) : Bool := containsList pat.toList s.toList

/-- Left-to-right non-overlapping replacement; the fuel is the input
length, which bounds the number of steps. -/
def replaceListGo (pat rep : List Char) : ℕ → List Char → List Char
  | 0, cs => cs
  | _ + 1, [] => []
  | fuel + 1, c :: cs =>
    if isPrefixList pat (c :: cs) then
      rep ++ replaceListGo pat rep fuel (cs.drop (pat.length - 1))
    else c :: replaceListGo pat rep fuel cs

/-- `s.replace(pat, rep)` for the non-empty literal patterns of the
source. -/
def pyReplace (s pat rep : String) : String :=
  if pat.toList = [] then s
  else String.mk (replaceListGo pat.toList rep.toList s.toList.length s.toList)

def splitOnChar (sep : Char) : List Char → List (List Char)
  | [] => [[]]
  | c :: cs =>
    match splitOnChar sep cs with
    | [] => [[]]
    | h :: t => if c = sep then [] :: h :: t else (c :: h) :: t

/-- The first entry of `s.split(sep)` (equal to `s` itself when `sep` does
not occur, which is exactly how the source guards the split). -/
def pySplitFirst (sep : Char) (s : String) : String :=
  String.mk ((splitOnChar sep s.toList).headD s.toList)

/-- A simple concrete stand-in for Python's `float(str)` (optional sign,
digits, optional fractional part).  All cost-model definitions are
parametric in the parser; `parseQ` only instantiates witnesses and
counterexamples. -/
def parseNatList : List Char → Option ℕ
  | [] => none
  | cs =>
    cs.foldl
      (fun acc c =>
        acc.bind fun n => if c.isDigit then some (n * 10 + (c.toNat - 48)) else none)
      (some 0)

def parseUnsignedQ (s : String) : Option ℚ :=
  match splitOnChar '.' s.toList with
  | [a] => (parseNatList a).map (fun n => (n : ℚ))
  | [a, b] =>
    match parseNatList a, parseNatList b with
    | some ip, some fp => some ((ip : ℚ) + (fp : ℚ) / ((10 : ℚ) ^ b.length))
    | _, _ => none
  | _ => none

def parseQ (s : String) : Option ℚ :=
  match s.toList with
  | '-' :: rest => (parseUnsignedQ (String.mk rest)).map (fun q => -q)
  | '+' :: rest => parseUnsignedQ (String.mk rest)
  | _ => parseUnsignedQ s

/-- A parser that fails on every string; a legitimate instantiation of the
abstract `float(str)` parameter for inputs whose attributes are numeric. -/
def parseNone : String → Option ℚ := fun _ => none

/-! ## `RoadGraph` cost model (`src/graph.py`) -/

/-- The string branch of `_coerce_float`: strip, reject the empty string,
then attempt the float conversion (`pf`). -/
def coerceQ (pf : String → Option ℚ) (s : String) : Option ℚ :=
  let t := pyStrip s
  if t = "" then none else pf t

/-- `RoadGraph._coerce_float`: numbers pass through, strings are
stripped/parsed, anything else (including list containers) yields `None`. -/
def coerceFloat (pf : String → Option ℚ) : Option Attr → Option ℚ
  | none => none
  | some (.num q) => some q
  | some (.str s) => coerceQ pf s
  | some (.list _) => none

/-- `speed.replace("km/h", "").replace("kph", "").strip()`. -/
def stripUnits (s : String) : String :=
  pyStrip (pyReplace (pyReplace s "km/h" "") "kph" "")

/-- Exact value of the source's `1.60934` miles-to-km factor. -/
def mphFactor : ℚ := 160934 / 100000

/-- The string pipeline of `_edge_speed_kph`: first semicolon-separated
entry, unit stripping, case-insensitive `mph` conversion, float coercion. -/
def speedOfStr (pf : String → Option ℚ) (s : String) : Option ℚ :=
  if pyContains (pyLower (stripUnits (pySplitFirst ';' s))) "mph" then
    match coerceQ pf (pyReplace (pyLower (stripUnits (pySplitFirst ';' s))) "mph" "") with
    | some v => some (v * mphFactor)
    | none => none
  else coerceQ pf (stripUnits (pySplitFirst ';' s))

/-- The relevant edge attributes (`travel_time`, `length`, `speed_kph`,
`maxspeed`); `none` models an absent key. -/
structure EdgeData : Type where
  travel_time : Option Attr := none
  length : Option Attr := none
  speed_kph : Option Attr := none
  maxspeed : Option Attr := none
deriving DecidableEq

/-- The scalar part of `_edge_speed_kph` applied after the `or`-choice of
the attribute: take a non-empty container's first element, route strings
through the unit pipeline, coerce everything else. -/
def speedOfAttr (pf : String → Option ℚ) (a : Option Attr) : Option ℚ :=
  let a1 : Option Attr :=
    match a with
    | some (.list (x :: _)) => some x
    | other => other
  match a1 with
  | some (.str s) => speedOfStr pf s
  | other => coerceFloat pf other

/-- `RoadGraph._edge_speed_kph`. -/
def edgeSpeedKph (pf : String → Option ℚ) (d : EdgeData) : Option ℚ :=
  speedOfAttr pf (pyOr d.speed_kph d.maxspeed)

/-- `RoadGraph._edge_speed_m_s` (`speed_kph / 3.6`). -/
def edgeSpeedMps (pf : String → Option ℚ) (d : EdgeData) : Option ℚ :=
  (edgeSpeedKph pf d).map (fun s => s / (18 / 5))

/-- The two weighting strategies (`weight_attr` is `"travel_time"` or
`"length"`). -/
inductive WeightAttr : Type where
  | travelTime
  | length
deriving DecidableEq

/-- `data.get(self.weight_attr)`. -/
def EdgeData.getW (d : EdgeData) : WeightAttr → Option Attr
  | .travelTime => d.travel_time
  | .length => d.length

/-- `RoadGraph._fallback_weight`: derive a cost from `length`; under the
travel-time weighting divide by the effective speed (`None`/`0.0` parsed
speeds fall back to the graph-wide maximum via the `or`, and a resulting
non-positive speed makes the edge unusable). -/
def fallbackWeight (pf : String → Option ℚ) (wa : WeightAttr) (maxSpeed : ℚ)
    (d : EdgeData) : Option ℚ :=
  match coerceFloat pf d.length with
  | none => none
  | some len =>
    match wa with
    | .travelTime =>
      let speed := pyOrQ (edgeSpeedMps pf d) maxSpeed
      if speed ≤ 0 then none else some (len / speed)
    | .length => some len

/-- The per-edge cost derivation inside `_edge_cost`: the coerced weight
attribute if usable, otherwise the length fallback. -/
def edgeWeight1 (pf : String → Option ℚ) (wa : WeightAttr) (maxSpeed : ℚ)
    (d : EdgeData) : Option ℚ :=
  match coerceFloat pf (d.getW wa) with
  | some w => some w
  | none => fallbackWeight pf wa maxSpeed d

/-- One iteration of the `_edge_cost` loop: keep the running best (first
minimum wins on ties, via the strict comparison). -/
def edgeCostStep (pf : String → Option ℚ) (wa : WeightAttr) (maxSpeed : ℚ)
    (best : Option ℚ) (d : EdgeData) : Option ℚ :=
  match edgeWeight1 pf wa maxSpeed d with
  | none => best
  | some w =>
    match best with
    | none => some w
    | some b => if w < b then some w else some b

/-- `RoadGraph._edge_cost`: minimum usable cost over a parallel-edge
bundle (`None` when no edge is usable). -/
def edgeCost (pf : String → Option ℚ) (wa : WeightAttr) (maxSpeed : ℚ)
    (edges : List EdgeData) : Option ℚ :=
  edges.foldl (edgeCostStep pf wa maxSpeed) none

/-- `RoadGraph._compute_max_speed`: maximum parseable declared speed in
km/h (defaulting to 130 when none is positive), converted to m/s. -/
def DEFAULT_MAX_SPEED_KPH : ℚ := 130

/-- The running maximum of the parseable declared speeds (in km/h). -/
def maxSpeedFold (pf : String → Option ℚ) (allEdges : List EdgeData) : ℚ :=
  allEdges.foldl
    (fun m d =>
      match edgeSpeedKph pf d with
      | some s => if m < s then s else m
      | none => m)
    0

def computeMaxSpeed (pf : String → Option ℚ) (allEdges : List EdgeData) : ℚ :=
  (if maxSpeedFold pf allEdges ≤ 0 then DEFAULT_MAX_SPEED_KPH
    else maxSpeedFold pf allEdges) / (18 / 5)

/-- The search-facing graph wrapper.  `succ` is the adjacency structure
(`graph.succ[node]`, each neighbour with its keyed bundle of parallel
edges); `nodes` is `get_all_nodes`.  Node coordinates are not part of this
structure because the searches below take the composite heuristic
`node ↦ heuristic.calculate(coords node, coords goal)` as an abstract
function. -/
structure RoadGraph (V : Type) : Type where
  succ : V → List (V × List EdgeData)
  nodes : List V

/-- `graph.get_edge_data(a, b) or {}`. -/
def RoadGraph.edgeData {V : Type} [DecidableEq V] (g : RoadGraph V) (a b : V) :
    List EdgeData :=
  match (g.succ a).find? (fun p => decide (p.1 = b)) with
  | some p => p.2
  | none => []

/-- All edge-data records of the graph (`graph.edges(data=True)`),
enumerated through the adjacency structure. -/
def RoadGraph.allEdgeData {V : Type} (g : RoadGraph V) : List EdgeData :=
  g.nodes.flatMap (fun n => (g.succ n).flatMap (fun p => p.2))

/-- The cached `_max_speed_m_s` of a `RoadGraph` (modelled by
recomputation; the cached and recomputed values coincide because the graph
is immutable). -/
def RoadGraph.maxSpeedMps {V : Type} (pf : String → Option ℚ) (g : RoadGraph V) : ℚ :=
  computeMaxSpeed pf g.allEdgeData

/-- `RoadGraph.get_neighbors`: outgoing neighbours with their derived
costs; bundles without a usable cost are skipped. -/
def RoadGraph.getNeighbors {V : Type} (pf : String → Option ℚ) (wa : WeightAttr)
    (g : RoadGraph V) (node : V) : List (V × ℚ) :=
  (g.succ node).filterMap
    (fun p => (edgeCost pf wa (g.maxSpeedMps pf) p.2).map (fun c => (p.1, c)))

/-- `RoadGraph.get_edge_weight`: minimum derived cost between two nodes,
`+∞` when no usable edge exists. -/
def RoadGraph.getEdgeWeight {V : Type} [DecidableEq V] (pf : String → Option ℚ)
    (wa : WeightAttr) (g : RoadGraph V) (a b : V) : WithTop ℚ :=
  match edgeCost pf wa (g.maxSpeedMps pf) (g.edgeData a b) with
  | some c => (c : WithTop ℚ)
  | none => ⊤

end AstarMap

namespace AstarMap

/-! ## Edge densification (`src/map_loader.py`, `densify_edges`)

`densify_edges` is modelled on its length dimension: node identifiers
(original OSM integers or synthetic `virtual_i` strings) become `ℕ ⊕ ℕ`,
and each edge carries the `length` attribute the loop reads.  Curve
geometry, coordinates of synthetic nodes and travel-time apportionment are
floating-point decorations none of the verified properties touch. -/

/-- A graph edge as seen by `densify_edges`: endpoints (`Sum.inl` for an
original node id, `Sum.inr i` for the synthetic `virtual_i`) and the edge's
`length` attribute in metres. -/
structure DenseEdge : Type where
  src : ℕ ⊕ ℕ
  dst : ℕ ⊕ ℕ
  length : ℚ
deriving DecidableEq

/-- The body of the `densify_edges` loop for a single edge: an edge whose
length is at most the threshold (or zero, or whose segment count rounds to
at most one) passes through unchanged; otherwise it becomes a chain of
`ceil(length / threshold)` segments of equal length through fresh
synthetic nodes.  Returns the produced edges and the next synthetic-node
counter. -/
def densifyEdge (t : ℚ) (counter : ℕ) (e : DenseEdge) : List DenseEdge × ℕ :=
  if e.length ≤ t ∨ e.length = 0 then ([e], counter)
  else
    let n : ℕ := (⌈e.length / t⌉ : ℤ).toNat
    if n ≤ 1 then ([e], counter)
    else
      let nodeAt : ℕ → ℕ ⊕ ℕ := fun i =>
        if i = 0 then e.src else if i = n then e.dst else Sum.inr (counter + (i - 1))
      ((List.range n).map (fun i => ⟨nodeAt i, nodeAt (i + 1), e.length / (n : ℚ)⟩),
        counter + (n - 1))

/-- `MapLoader.densify_edges` over the edge list: every edge is processed
in order, threading the global synthetic-node counter
(`itertools.count()`). -/
def densifyEdges (t : ℚ) (es : List DenseEdge) : List DenseEdge :=
  (es.foldl
    (fun acc e =>
      let r := densifyEdge t acc.2 e
      (acc.1 ++ r.1, r.2))
    (([] : List DenseEdge), 0)).1

/-! ## Heuristic construction (`src/heuristics.py`) and the map loader
(`src/map_loader.py`)

Only the travel-time heuristic's constructor carries verified behaviour
(its `calculate` is spherical trigonometry on floats).  Raised exceptions
become `Except.error` carrying the exception message. -/

/-- `TravelTimeHeuristic`: the stored optimistic speed. -/
structure TravelTimeHeuristic : Type where
  max_speed_m_s : ℚ
deriving DecidableEq

/-- `TravelTimeHeuristic.__init__`: rejects a non-positive speed. -/
def TravelTimeHeuristic.make (s : ℚ) : Except String TravelTimeHeuristic :=
  if s ≤ 0 then Except.error "max_speed_m_s must be positive" else Except.ok ⟨s⟩

/-- `PathMetrics` (the frozen dataclass). -/
structure PathMetrics : Type where
  distance_m : ℚ
  travel_time_s : ℚ
  edge_count : ℕ
deriving DecidableEq

/-- Node ids handled by the loader: original integers or synthetic
`virtual_i` ids. -/
def PyNode : Type := ℕ ⊕ ℕ

instance : DecidableEq PyNode := instDecidableEqSum

/-- Basic graph info exposed by `get_graph_info`. -/
structure GraphInfo : Type where
  num_nodes : ℕ
  num_edges : ℕ
  place_name : Option String
deriving DecidableEq

/-- The loader-facing view of the loaded graph: node list, per-node
coordinates (`(y, x)`; `none` models a `KeyError` on a missing node),
parallel-edge bundles (`get_edge_data(src, dst) or {}`), and the edge list
seen by densification. -/
structure LGraph : Type where
  nodes : List PyNode
  coords : PyNode → Option (ℚ × ℚ)
  bundles : PyNode → PyNode → List EdgeData
  edges : List DenseEdge

/-- `MapLoader` state: the optional graph, the place name and the cached
`_max_speed_m_s`. -/
structure MapLoader : Type where
  graph : Option LGraph
  place_name : Option String
  maxSpeedMps : ℚ

/-- The message of the "not ready" `RuntimeError`. -/
def notReadyMsg : String := "Graph not loaded. Call 'load_map' first."

/-- `MapLoader._ensure_graph_loaded`, returning the graph on success. -/
def MapLoader.ensureGraphLoaded (m : MapLoader) : Except String LGraph :=
  match m.graph with
  | none => Except.error notReadyMsg
  | some g => Except.ok g

/-- `MapLoader.densify_edges`: the threshold is validated first (even when
no graph is loaded), then the graph guard runs, then the graph is rebuilt;
the cached maximum speed is not touched here. -/
def MapLoader.densifyEdges (t : ℚ) (m : MapLoader) : Except String MapLoader :=
  if t ≤ 0 then Except.error "max_segment_length_m must be greater than zero"
  else
    (m.ensureGraphLoaded).map
      (fun g => { m with graph := some { g with edges := AstarMap.densifyEdges t g.edges } })

/-- `MapLoader.get_nearest_node`; the actual nearest-node search is the
external `osmnx.distance.nearest_nodes`, abstracted as `near` (note the
`(lon, lat)` argument swap). -/
def MapLoader.getNearestNode (near : LGraph → ℚ × ℚ → PyNode) (m : MapLoader)
    (pt : ℚ × ℚ) : Except String PyNode :=
  (m.ensureGraphLoaded).map (fun g => near g (pt.2, pt.1))

/-- `MapLoader.get_node_coordinates`. -/
def MapLoader.getNodeCoordinates (m : MapLoader) (v : PyNode) : Except String (ℚ × ℚ) :=
  (m.ensureGraphLoaded).bind
    (fun g =>
      match g.coords v with
      | some yx => Except.ok yx
      | none => Except.error "KeyError")

/-- `MapLoader.path_to_coordinates`, restricted to the plain (no
edge-geometry splicing) polyline: the guard runs first, an empty path
yields an empty list, otherwise each node's coordinates are emitted. -/
def MapLoader.pathToCoordinates (m : MapLoader) (path : List PyNode) :
    Except String (List (ℚ × ℚ)) :=
  (m.ensureGraphLoaded).bind
    (fun g =>
      if path = [] then Except.ok []
      else
        path.foldl
          (fun acc v =>
            acc.bind
              (fun l =>
                match g.coords v with
                | some c => Except.ok (l ++ [c])
                | none => Except.error "KeyError"))
          (Except.ok []))

/-- The per-edge selection cost of `_select_best_edge`: coerced
`travel_time` when present, else coerced `length`, else `+∞`. -/
def metricCost (pf : String → Option ℚ) (d : EdgeData) : WithTop ℚ :=
  match coerceFloat pf d.travel_time with
  | some tt => (tt : WithTop ℚ)
  | none =>
    match coerceFloat pf d.length with
    | some l => (l : WithTop ℚ)
    | none => ⊤

/-- One iteration of the `_select_best_edge` loop. -/
def selectStep (pf : String → Option ℚ) (acc : Option EdgeData × WithTop ℚ)
    (d : EdgeData) : Option EdgeData × WithTop ℚ :=
  if metricCost pf d < acc.2 then (some d, metricCost pf d) else acc

/-- `MapLoader._select_best_edge`: the parallel edge of minimum selection
cost, `none` when the bundle is empty or no edge carries a finite cost. -/
def selectBestEdge (pf : String → Option ℚ) (bundle : List EdgeData) : Option EdgeData :=
  if bundle.isEmpty then none
  else
    let best := bundle.foldl (selectStep pf) (none, ⊤)
    if best.2 = ⊤ then none else best.1

/-- Python's raw `float(value)` on an attribute value: numbers convert,
strings are parsed (an unparseable or empty string raises, modelled as
`none`), containers raise. -/
def pyFloatAttr (pf : String → Option ℚ) : Attr → Option ℚ
  | .num q => some q
  | .str s => coerceQ pf s
  | .list _ => none

/-- `MapLoader._length_to_travel_time`: effective speed with the cached
maximum as fallback; a non-positive effective speed yields `0.0`. -/
def lengthToTravelTime (pf : String → Option ℚ) (maxS len : ℚ) (d : EdgeData) : ℚ :=
  let speed := pyOrQ (edgeSpeedMps pf d) maxS
  if speed ≤ 0 then 0 else len / speed

/-- The metric contribution of one selected edge inside
`calculate_path_metrics`: `float(data.get("length", 0.0))` and the travel
time (`float(travel_time)` when present, otherwise the length fallback);
`none` models a conversion exception escaping the method. -/
def edgeMetrics (pf : String → Option ℚ) (maxS : ℚ) (d : EdgeData) : Option (ℚ × ℚ) :=
  let lengthv : Option ℚ :=
    match d.length with
    | none => some 0
    | some a => pyFloatAttr pf a
  match lengthv with
  | none => none
  | some len =>
    match d.travel_time with
    | some a => (pyFloatAttr pf a).map (fun tt => (len, tt))
    | none => some (len, lengthToTravelTime pf maxS len d)

/-- One consecutive-pair step of `calculate_path_metrics`: a pair with no
usable edge is skipped, a selected edge contributes its metrics or raises. -/
def metricsStep (pf : String → Option ℚ) (maxS : ℚ) (g : LGraph)
    (acc : Except String (ℚ × ℚ × ℕ)) (pr : PyNode × PyNode) :
    Except String (ℚ × ℚ × ℕ) :=
  acc.bind
    (fun st =>
      match selectBestEdge pf (g.bundles pr.1 pr.2) with
      | none => Except.ok st
      | some d =>
        match edgeMetrics pf maxS d with
        | none => Except.error "ValueError: could not convert edge attribute"
        | some lt => Except.ok (st.1 + lt.1, st.2.1 + lt.2, st.2.2 + 1))

/-- `MapLoader.calculate_path_metrics`. -/
def MapLoader.calculatePathMetrics (pf : String → Option ℚ) (m : MapLoader)
    (path : List PyNode) : Except String PathMetrics :=
  (m.ensureGraphLoaded).bind
    (fun g =>
      ((path.zip path.tail).foldl (metricsStep pf m.maxSpeedMps g)
          (Except.ok ((0 : ℚ), (0 : ℚ), (0 : ℕ)))).map
        (fun st => ⟨st.1, st.2.1, st.2.2⟩))

/-- `MapLoader.get_graph_info`: an unloaded graph yields the empty dict
(`Except.ok none`), never an error. -/
def MapLoader.getGraphInfo (m : MapLoader) : Except String (Option GraphInfo) :=
  match m.graph with
  | none => Except.ok none
  | some g => Except.ok (some ⟨g.nodes.length, g.edges.length, m.place_name⟩)

end AstarMap

namespace AstarMap

/-! ## The searches (`src/astar.py`)

Both `find_path` methods consume a `RoadGraph` only through
`get_neighbors` (and, for A*, the composite heuristic
`node ↦ heuristic.calculate(coords node, coords goal)`), so the searches
are embedded over an abstract adjacency function `adj : V → List (V × ℚ)`
and heuristic `h : V → ℚ`.  The `while` loop of A* becomes a fuel-indexed
recursion: `none` means the fuel ran out, and every claim about A* is
stated for runs that return. -/

/-- The minimum of a heap of `(f, node)` entries under Python's
lexicographic tuple order (`heapq` pops exactly this element). -/
def heapMin {V : Type} [LinearOrder V] : List (ℚ × V) → Option (ℚ × V)
  | [] => none
  | e :: es =>
    some (es.foldl (fun b x => if x.1 < b.1 ∨ (x.1 = b.1 ∧ x.2 < b.2) then x else b) e)

/-- `heapq.heappop`: the minimal entry and the remaining heap. -/
def popMin {V : Type} [LinearOrder V] (l : List (ℚ × V)) :
    Option ((ℚ × V) × List (ℚ × V)) :=
  (heapMin l).map (fun m => (m, l.erase m))

/-- The A* loop state: the open heap, `came_from` (a present key maps to
`some pred` or, for the start node, `none`), and `g_score`.  The
`f_score` dictionary of the source is omitted: each stored value is pushed
immediately and never read back (the initial entry is pushed with priority
literal `0`). -/
structure AStarState (V : Type) : Type where
  openl : List (ℚ × V)
  cameFrom : V → Option (Option V)
  gScore : V → Option ℚ

/-- `g_score[v]`.  Python raises a `KeyError` on a missing key; the loop
only ever reads keys it has written (an invariant proved below), where the
model and the source agree. -/
def gget {V : Type} (s : AStarState V) (v : V) : ℚ := (s.gScore v).getD 0

/-- The updating branch of the neighbour relaxation: record predecessor
and tentative cost, push `(tentative_g + h(neighbor), neighbor)`. -/
def relaxUpd {V : Type} [DecidableEq V] (h : V → ℚ) (current : V) (s : AStarState V)
    (p : V × ℚ) (tg : ℚ) : AStarState V :=
  { openl := (tg + h p.1, p.1) :: s.openl,
    cameFrom := fun v => if v = p.1 then some (some current) else s.cameFrom v,
    gScore := fun v => if v = p.1 then some tg else s.gScore v }

/-- One neighbour relaxation of A*: update when the neighbour is unseen or
the tentative cost strictly improves. -/
def relaxOne {V : Type} [DecidableEq V] (h : V → ℚ) (current : V) (s : AStarState V)
    (p : V × ℚ) : AStarState V :=
  match s.gScore p.1 with
  | none => relaxUpd h current s p (gget s current + p.2)
  | some g =>
    if gget s current + p.2 < g then relaxUpd h current s p (gget s current + p.2) else s

/-- Relaxation of all neighbours of the expanded node. -/
def relaxAll {V : Type} [DecidableEq V] (adj : V → List (V × ℚ)) (h : V → ℚ)
    (current : V) (s : AStarState V) : AStarState V :=
  (adj current).foldl (relaxOne h current) s

/-- `AStar._reconstruct_path`: follow `came_from` until the start entry
(`some none`) or a missing key, accumulating in reverse.  `came_from`
chains in reachable states are acyclic and shorter than the fuel, where
the model agrees with the unbounded Python loop. -/
def reconstructPath {V : Type} (cf : V → Option (Option V)) : ℕ → V → List V
  | 0, cur => [cur]
  | n + 1, cur =>
    match cf cur with
    | some (some prev) => reconstructPath cf n prev ++ [cur]
    | _ => [cur]

/-- The A* main loop.  An empty heap returns `([], +∞)`; popping the goal
returns the reconstructed path with the goal's current `g_score`. -/
def astarLoop {V : Type} [LinearOrder V] (adj : V → List (V × ℚ)) (h : V → ℚ)
    (goal : V) : ℕ → AStarState V → Option (List V × WithTop ℚ)
  | 0, _ => none
  | fuel + 1, s =>
    match popMin s.openl with
    | none => some ([], ⊤)
    | some (e, rest) =>
      if e.2 = goal then
        some (reconstructPath s.cameFrom (fuel + 1) e.2, ((gget s e.2 : ℚ) : WithTop ℚ))
      else astarLoop adj h goal fuel (relaxAll adj h e.2 { s with openl := rest })

/-- The initial A* state: `came_from = {start: None}`, `g_score =
{start: 0}`, heap `[(0, start)]`. -/
def astarInit {V : Type} [DecidableEq V] (start : V) : AStarState V :=
  { openl := [((0 : ℚ), start)],
    cameFrom := fun v => if v = start then some none else none,
    gScore := fun v => if v = start then some (0 : ℚ) else none }

/-- `AStar.find_path`. -/
def astarFindPath {V : Type} [LinearOrder V] (fuel : ℕ) (adj : V → List (V × ℚ))
    (h : V → ℚ) (start goal : V) : Option (List V × WithTop ℚ) :=
  astarLoop adj h goal fuel (astarInit start)

/-- `min(unvisited, key=lambda node: distance[node])`: the first element
attaining the minimal distance (ties keep the earlier element, as Python's
`min`; the iteration order of the Python set is one fixed order here). -/
def dijkstraMinNode {V : Type} (dist : V → WithTop ℚ) : List V → Option V
  | [] => none
  | v :: rest => some (rest.foldl (fun b u => if dist u < dist b then u else b) v)

/-- One edge relaxation of Dijkstra on the `(distance, previous)` pair. -/
def drelaxOne {V : Type} [DecidableEq V] (current : V)
    (dp : (V → WithTop ℚ) × (V → Option V)) (p : V × ℚ) :
    (V → WithTop ℚ) × (V → Option V) :=
  if dp.1 current + (p.2 : WithTop ℚ) < dp.1 p.1 then
    (fun v => if v = p.1 then dp.1 current + (p.2 : WithTop ℚ) else dp.1 v,
      fun v => if v = p.1 then some current else dp.2 v)
  else dp

/-- Relaxation of all outgoing edges of the selected node. -/
def drelaxAll {V : Type} [DecidableEq V] (adj : V → List (V × ℚ)) (current : V)
    (dp : (V → WithTop ℚ) × (V → Option V)) : (V → WithTop ℚ) × (V → Option V) :=
  (adj current).foldl (drelaxOne current) dp

/-- The Dijkstra `while unvisited` loop: select the unvisited node of
minimal distance, stop on the goal or on an infinite minimum, otherwise
relax and continue.  The fuel bounds the iteration count; callers supply
`|unvisited|`, which is exact since each iteration removes one node. -/
def dijkstraLoop {V : Type} [DecidableEq V] (adj : V → List (V × ℚ)) (goal : V) :
    ℕ → List V → (V → WithTop ℚ) × (V → Option V) →
      (V → WithTop ℚ) × (V → Option V)
  | 0, _, dp => dp
  | fuel + 1, unvisited, dp =>
    match dijkstraMinNode dp.1 unvisited with
    | none => dp
    | some current =>
      if current = goal then dp
      else if dp.1 current = ⊤ then dp
      else dijkstraLoop adj goal fuel (unvisited.erase current) (drelaxAll adj current dp)

/-- `Dijkstra._reconstruct_path`: follow `previous` from the goal;
`previous` chains in reachable states are acyclic and shorter than the
fuel, where the model agrees with the unbounded Python loop. -/
def dijkstraReconstruct {V : Type} (prev : V → Option V) : ℕ → V → List V
  | 0, cur => [cur]
  | n + 1, cur =>
    match prev cur with
    | some p => dijkstraReconstruct prev n p ++ [cur]
    | none => [cur]

/-- The initial Dijkstra state: `distance = {start: 0, _: +∞}`,
`previous = {_: None}`. -/
def dijkstraInit {V : Type} [DecidableEq V] (start : V) :
    (V → WithTop ℚ) × (V → Option V) :=
  (fun v => if v = start then ((0 : ℚ) : WithTop ℚ) else ⊤, fun _ => none)

/-- `Dijkstra.find_path`: distances start at `{start: 0, _: +∞}` over the
deduplicated node set, and the result is the reconstructed predecessor
chain with `distance[goal]`. -/
def dijkstraFindPath {V : Type} [DecidableEq V] (adj : V → List (V × ℚ))
    (nodes : List V) (start goal : V) : List V × WithTop ℚ :=
  (dijkstraReconstruct
      (dijkstraLoop adj goal nodes.dedup.length nodes.dedup (dijkstraInit start)).2
      nodes.length goal,
    (dijkstraLoop adj goal nodes.dedup.length nodes.dedup (dijkstraInit start)).1 goal)

/-! ## Reachability

`Reach adj u v c` holds when some walk from `u` to `v` along `adj` has
total cost `c`; it is the specification both searches are measured
against. -/

inductive Reach {V : Type} (adj : V → List (V × ℚ)) : V → V → ℚ → Prop where
  | refl (v : V) : Reach adj v v 0
  | tail {u w v : V} {d c : ℚ} :
      Reach adj u w d → (v, c) ∈ adj w → Reach adj u v (d + c)

/-! ## Search invariants -/

/-- The A* loop invariant.  `g_reach`: recorded costs are walk costs;
`g_start`: the start's record never exceeds `0`; `open_g`: every heap
entry's node has a record at most the entry's priority; `goal_open`: while
the loop runs, a recorded goal still has a heap entry; `relax_inv`: every
recorded node either has a heap entry priced at most `g + h` or has all
its out-edges relaxed at its current record. -/
structure AInv {V : Type} (adj : V → List (V × ℚ)) (h : V → ℚ) (start goal : V)
    (s : AStarState V) : Prop where
  g_reach : ∀ v c, s.gScore v = some c → Reach adj start v c
  g_start : ∃ c, s.gScore start = some c ∧ c ≤ 0
  open_g : ∀ e ∈ s.openl, ∃ c, s.gScore e.2 = some c ∧ c ≤ e.1
  goal_open : ∀ c, s.gScore goal = some c → ∃ f, (f, goal) ∈ s.openl
  relax_inv : ∀ v gv, s.gScore v = some gv →
    (∃ f, (f, v) ∈ s.openl ∧ f ≤ gv + h v) ∨
    (∀ p ∈ adj v, ∃ gx, s.gScore p.1 = some gx ∧ gx ≤ gv + p.2)

/-- The weakened invariant holding between the pop of `current` and the
end of its relaxation (its `relax_inv` disjunct is being rebuilt). -/
structure AWeak {V : Type} (adj : V → List (V × ℚ)) (h : V → ℚ)
    (start goal current : V) (gcur : ℚ) (s : AStarState V) : Prop where
  g_reach : ∀ v c, s.gScore v = some c → Reach adj start v c
  g_start : ∃ c, s.gScore start = some c ∧ c ≤ 0
  open_g : ∀ e ∈ s.openl, ∃ c, s.gScore e.2 = some c ∧ c ≤ e.1
  goal_open : ∀ c, s.gScore goal = some c → ∃ f, (f, goal) ∈ s.openl
  relax_ex : ∀ v gv, v ≠ current → s.gScore v = some gv →
    (∃ f, (f, v) ∈ s.openl ∧ f ≤ gv + h v) ∨
    (∀ p ∈ adj v, ∃ gx, s.gScore p.1 = some gx ∧ gx ≤ gv + p.2)
  cur_g : s.gScore current = some gcur

/-- The fragment of the invariant needed for the unreachable-goal
analysis. -/
structure AUn {V : Type} (adj : V → List (V × ℚ)) (start : V) (s : AStarState V) :
    Prop where
  g_reach : ∀ v c, s.gScore v = some c → Reach adj start v c
  open_g : ∀ e ∈ s.openl, ∃ c, s.gScore e.2 = some c

/-- The Dijkstra invariant fragment needing no side conditions: finite
distances are walk costs, and a set predecessor implies a finite
distance. -/
structure DCore {V : Type} (adj : V → List (V × ℚ)) (start : V)
    (dp : (V → WithTop ℚ) × (V → Option V)) : Prop where
  d_reach : ∀ v (q : ℚ), dp.1 v = (q : WithTop ℚ) → Reach adj start v q
  d_prev : ∀ v, dp.2 v ≠ none → dp.1 v ≠ ⊤

/-- The full Dijkstra loop invariant over the unvisited list `U`. -/
structure DInv {V : Type} (adj : V → List (V × ℚ)) (nodes : List V) (start : V)
    (U : List V) (dp : (V → WithTop ℚ) × (V → Option V)) : Prop where
  core : DCore adj start dp
  u_sub : ∀ v ∈ U, v ∈ nodes
  u_nodup : U.Nodup
  d_start : dp.1 start = ((0 : ℚ) : WithTop ℚ)
  d_settled : ∀ v ∈ nodes, v ∉ U → ∀ c : ℚ, Reach adj start v c →
    dp.1 v ≤ (c : WithTop ℚ)
  d_frontier : ∀ v ∈ nodes, v ∉ U → ∀ q : ℚ, dp.1 v = (q : WithTop ℚ) →
    ∀ p ∈ adj v, dp.1 p.1 ≤ ((q + p.2 : ℚ) : WithTop ℚ)

/-- The A* mid-relaxation invariant: the state between the pop of
`current` (recorded cost `gcur0` at pop time) and the end of its
relaxation, with the out-edges in `done` already relaxed. -/
structure AMid {V : Type} (adj : V → List (V × ℚ)) (h : V → ℚ)
    (start goal current : V) (gcur0 : ℚ) (done : List (V × ℚ))
    (s : AStarState V) : Prop where
  g_reach : ∀ v c, s.gScore v = some c → Reach adj start v c
  g_start : ∃ c, s.gScore start = some c ∧ c ≤ 0
  open_g : ∀ e ∈ s.openl, ∃ c, s.gScore e.2 = some c ∧ c ≤ e.1
  goal_open : ∀ c, s.gScore goal = some c → ∃ f, (f, goal) ∈ s.openl
  relax_ex : ∀ v gv, v ≠ current → s.gScore v = some gv →
    (∃ f, (f, v) ∈ s.openl ∧ f ≤ gv + h v) ∨
    (∀ p ∈ adj v, ∃ gx, s.gScore p.1 = some gx ∧ gx ≤ gv + p.2)
  cur_tr : (s.gScore current = some gcur0 ∧
      ∀ p ∈ done, ∃ gx, s.gScore p.1 = some gx ∧ gx ≤ gcur0 + p.2) ∨
    (∃ f gc, (f, current) ∈ s.openl ∧ s.gScore current = some gc ∧
      f ≤ gc + h current)

/-- The Dijkstra mid-relaxation invariant: `cur` was selected from `U`
with finite distance `qc`, and the out-edges in `done` have been relaxed;
`dp0` is the state at selection time. -/
structure DMid {V : Type} (adj : V → List (V × ℚ)) (nodes : List V)
    (start : V) (U : List V) (cur : V) (qc : ℚ)
    (dp0 dp : (V → WithTop ℚ) × (V → Option V))
    (done : List (V × ℚ)) : Prop where
  core : DCore adj start dp
  mono : ∀ v, dp.1 v ≤ dp0.1 v
  settled_eq : ∀ v ∈ nodes, v ∉ U → dp.1 v = dp0.1 v
  cur_eq : dp.1 cur = (qc : WithTop ℚ)
  done_rel : ∀ p ∈ done, dp.1 p.1 ≤ ((qc + p.2 : ℚ) : WithTop ℚ)
  d_start : dp.1 start = ((0 : ℚ) : WithTop ℚ)

end AstarMap

namespace AstarMap

/-! ## Concrete instances used by witnesses and counterexamples -/

/-- A two-node graph with the single edge `0 → 1` of cost `5`. -/
def lineAdj : ℕ → List (ℕ × ℚ) := fun v => if v = 0 then [(1, 5)] else []

/-- A single directed edge `0 → 1` with `travel_time = 5`. -/
def edgeTT5 : EdgeData := { travel_time := some (.num 5) }

/-- A single directed edge with `travel_time = -5` (negative cost data). -/
def edgeTTneg : EdgeData := { travel_time := some (.num (-5)) }

/-- An edge with `length = 100` and declared `maxspeed = -10`. -/
def edgeNegSpeed : EdgeData := { length := some (.num 100), maxspeed := some (.num (-10)) }

/-- An edge with `length = 100` and declared `maxspeed = "50"`. -/
def edgeSpeed50 : EdgeData := { length := some (.num 100), maxspeed := some (.str "50") }

/-- An edge with `travel_time = 3` (a cheaper parallel edge). -/
def edgeTT3 : EdgeData := { travel_time := some (.num 3) }

/-- An edge with an unparseable `travel_time` string but a numeric
`length`. -/
def edgeBadTT : EdgeData := { travel_time := some (.str "abc"), length := some (.num 100) }

/-- An edge with `travel_time = 7` and `length = 100`. -/
def edgeTT7Len : EdgeData := { travel_time := some (.num 7), length := some (.num 100) }

/-- Two-node graph with the single edge `0 → 1` carrying `travel_time = 5`. -/
def graphTT5 : RoadGraph ℕ :=
  { succ := fun v => if v = 0 then [(1, [edgeTT5])] else [], nodes := [0, 1] }

/-- Two-node graph whose single edge carries `travel_time = -5`. -/
def graphTTneg : RoadGraph ℕ :=
  { succ := fun v => if v = 0 then [(1, [edgeTTneg])] else [], nodes := [0, 1] }

/-- Two-node graph whose single edge has `length = 100` and
`maxspeed = -10`. -/
def graphNegSpeed : RoadGraph ℕ :=
  { succ := fun v => if v = 0 then [(1, [edgeNegSpeed])] else [], nodes := [0, 1] }

/-- Two-node graph with two parallel edges `0 → 1` of travel times 5 and 3. -/
def graphPar : RoadGraph ℕ :=
  { succ := fun v => if v = 0 then [(1, [edgeTT5, edgeTT3])] else [], nodes := [0, 1] }

/-- Adjacency with no edges at all. -/
def emptyAdj : ℕ → List (ℕ × ℚ) := fun _ => []

/-- A 250-metre edge between two original nodes. -/
def edge250 : DenseEdge := { src := Sum.inl 0, dst := Sum.inl 1, length := 250 }

/-- A freshly constructed loader (no graph). -/
def emptyLoader : MapLoader := { graph := none, place_name := none, maxSpeedMps := 325 / 9 }

/-- Loader graph whose only bundle (from node `0` to node `1`) is the
single edge with unparseable `travel_time` and numeric `length`. -/
def lgraphBadTT : LGraph :=
  { nodes := [Sum.inl 0, Sum.inl 1],
    coords := fun _ => some (0, 0),
    bundles := fun a b =>
      if a = Sum.inl 0 ∧ b = Sum.inl 1 then [edgeBadTT] else [],
    edges := [] }

/-- Loader with `lgraphBadTT` loaded. -/
def loaderBadTT : MapLoader :=
  { graph := some lgraphBadTT, place_name := none, maxSpeedMps := 325 / 9 }

/-- Loader graph with two parallel edges from `0` to `1`: travel times 7
and 5 with lengths 100 and 200. -/
def edgeTT5Len : EdgeData := { travel_time := some (.num 5), length := some (.num 200) }

def lgraphPar : LGraph :=
  { nodes := [Sum.inl 0, Sum.inl 1],
    coords := fun _ => some (0, 0),
    bundles := fun a b =>
      if a = Sum.inl 0 ∧ b = Sum.inl 1 then [edgeTT7Len, edgeTT5Len] else [],
    edges := [] }

/-- Loader with `lgraphPar` loaded. -/
def loaderPar : MapLoader :=
  { graph := some lgraphPar, place_name := none, maxSpeedMps := 325 / 9 }

end AstarMap

namespace AstarMap

/-! ## Lemmas about the cost fold -/

theorem edgeCostStep_skip (pf : String → Option ℚ) (wa : WeightAttr) (m : ℚ)
    (acc : Option ℚ) (d : EdgeData) (h : edgeWeight1 pf wa m d = none) :
    edgeCostStep pf wa m acc d = acc := by
  unfold edgeCostStep
  rw [h]

theorem edgeCostStep_first (pf : String → Option ℚ) (wa : WeightAttr) (m : ℚ)
    (d : EdgeData) (w : ℚ) (hw : edgeWeight1 pf wa m d = some w) :
    edgeCostStep pf wa m none d = some w := by
  unfold edgeCostStep
  rw [hw]

theorem edgeCostStep_keep_lt (pf : String → Option ℚ) (wa : WeightAttr) (m : ℚ)
    (d : EdgeData) (w b : ℚ) (hw : edgeWeight1 pf wa m d = some w) (hlt : w < b) :
    edgeCostStep pf wa m (some b) d = some w := by
  unfold edgeCostStep
  rw [hw]
  show (if w < b then some w else some b) = some w
  rw [if_pos hlt]

theorem edgeCostStep_keep_ge (pf : String → Option ℚ) (wa : WeightAttr) (m : ℚ)
    (d : EdgeData) (w b : ℚ) (hw : edgeWeight1 pf wa m d = some w) (hlt : ¬ w < b) :
    edgeCostStep pf wa m (some b) d = some b := by
  unfold edgeCostStep
  rw [hw]
  show (if w < b then some w else some b) = some b
  rw [if_neg hlt]

theorem edgeCost_go_some (pf : String → Option ℚ) (wa : WeightAttr) (m : ℚ) :
    ∀ (l : List EdgeData) (acc : Option ℚ) (c : ℚ),
      l.foldl (edgeCostStep pf wa m) acc = some c →
      acc = some c ∨ ∃ d ∈ l, edgeWeight1 pf wa m d = some c := by
  intro l
  induction l with
  | nil => intro acc c h; exact Or.inl h
  | cons d l ih =>
    intro acc c h
    simp only [List.foldl_cons] at h
    rcases hw : edgeWeight1 pf wa m d with _ | w
    · rw [edgeCostStep_skip pf wa m acc d hw] at h
      rcases ih acc c h with h1 | ⟨d2, hd2, hw2⟩
      · exact Or.inl h1
      · exact Or.inr ⟨d2, List.mem_cons_of_mem d hd2, hw2⟩
    · rcases acc with _ | b
      · rw [edgeCostStep_first pf wa m d w hw] at h
        rcases ih (some w) c h with h1 | ⟨d2, hd2, hw2⟩
        · exact Or.inr ⟨d, List.mem_cons_self d l, hw.trans h1⟩
        · exact Or.inr ⟨d2, List.mem_cons_of_mem d hd2, hw2⟩
      · by_cases hlt : w < b
        · rw [edgeCostStep_keep_lt pf wa m d w b hw hlt] at h
          rcases ih (some w) c h with h1 | ⟨d2, hd2, hw2⟩
          · exact Or.inr ⟨d, List.mem_cons_self d l, hw.trans h1⟩
          · exact Or.inr ⟨d2, List.mem_cons_of_mem d hd2, hw2⟩
        · rw [edgeCostStep_keep_ge pf wa m d w b hw hlt] at h
          rcases ih (some b) c h with h1 | ⟨d2, hd2, hw2⟩
          · exact Or.inl h1
          · exact Or.inr ⟨d2, List.mem_cons_of_mem d hd2, hw2⟩

theorem edgeCost_go_le (pf : String → Option ℚ) (wa : WeightAttr) (m : ℚ) :
    ∀ (l : List EdgeData) (acc : Option ℚ) (c : ℚ),
      l.foldl (edgeCostStep pf wa m) acc = some c →
      (∀ a : ℚ, acc = some a → c ≤ a) ∧
      (∀ d ∈ l, ∀ w : ℚ, edgeWeight1 pf wa m d = some w → c ≤ w) := by
  intro l
  induction l with
  | nil =>
    intro acc c h
    simp only [List.foldl_nil] at h
    refine ⟨fun a ha => ?_, fun d hd => absurd hd (List.not_mem_nil d)⟩
    rw [ha] at h
    exact le_of_eq (Option.some_injective ℚ h).symm
  | cons d l ih =>
    intro acc c h
    simp only [List.foldl_cons] at h
    rcases hw : edgeWeight1 pf wa m d with _ | w
    · rw [edgeCostStep_skip pf wa m acc d hw] at h
      obtain ⟨ha, hr⟩ := ih acc c h
      refine ⟨ha, fun d2 hd2 w2 hw2 => ?_⟩
      rcases List.mem_cons.mp hd2 with rfl | h2
      · rw [hw] at hw2; cases hw2
      · exact hr d2 h2 w2 hw2
    · rcases acc with _ | b
      · rw [edgeCostStep_first pf wa m d w hw] at h
        obtain ⟨ha, hr⟩ := ih (some w) c h
        refine ⟨fun a ha2 => ?_, fun d2 hd2 w2 hw2 => ?_⟩
        · cases ha2
        rcases List.mem_cons.mp hd2 with rfl | h2
        · rw [hw] at hw2
          exact (Option.some_injective ℚ hw2) ▸ ha w rfl
        · exact hr d2 h2 w2 hw2
      · by_cases hlt : w < b
        · rw [edgeCostStep_keep_lt pf wa m d w b hw hlt] at h
          obtain ⟨ha, hr⟩ := ih (some w) c h
          refine ⟨fun a ha2 => ?_, fun d2 hd2 w2 hw2 => ?_⟩
          · cases ha2
            exact le_of_lt (lt_of_le_of_lt (ha w rfl) hlt)
          · rcases List.mem_cons.mp hd2 with rfl | h2
            · rw [hw] at hw2
              exact (Option.some_injective ℚ hw2) ▸ ha w rfl
            · exact hr d2 h2 w2 hw2
        · rw [edgeCostStep_keep_ge pf wa m d w b hw hlt] at h
          obtain ⟨ha, hr⟩ := ih (some b) c h
          refine ⟨fun a ha2 => ?_, fun d2 hd2 w2 hw2 => ?_⟩
          · cases ha2
            exact ha b rfl
          · rcases List.mem_cons.mp hd2 with rfl | h2
            · rw [hw] at hw2
              cases Option.some_injective ℚ hw2
              exact le_trans (ha b rfl) (le_of_not_lt hlt)
            · exact hr d2 h2 w2 hw2

theorem edgeCost_go_none (pf : String → Option ℚ) (wa : WeightAttr) (m : ℚ) :
    ∀ (l : List EdgeData) (acc : Option ℚ),
      (∀ d ∈ l, edgeWeight1 pf wa m d = none) →
      l.foldl (edgeCostStep pf wa m) acc = acc := by
  intro l
  induction l with
  | nil => intro acc _; rfl
  | cons d l ih =>
    intro acc hall
    simp only [List.foldl_cons]
    rw [edgeCostStep_skip pf wa m acc d (hall d (List.mem_cons_self d l))]
    exact ih acc (fun d2 hd2 => hall d2 (List.mem_cons_of_mem d hd2))

theorem edgeCost_go_isSome (pf : String → Option ℚ) (wa : WeightAttr) (m : ℚ) :
    ∀ (l : List EdgeData) (acc : Option ℚ), acc.isSome = true →
      (l.foldl (edgeCostStep pf wa m) acc).isSome = true := by
  intro l
  induction l with
  | nil => intro acc h; exact h
  | cons d l ih =>
    intro acc h
    simp only [List.foldl_cons]
    apply ih
    rcases hw : edgeWeight1 pf wa m d with _ | w
    · rw [edgeCostStep_skip pf wa m acc d hw]; exact h
    · rcases acc with _ | b
      · rw [edgeCostStep_first pf wa m d w hw]; rfl
      · by_cases hlt : w < b
        · rw [edgeCostStep_keep_lt pf wa m d w b hw hlt]; rfl
        · rw [edgeCostStep_keep_ge pf wa m d w b hw hlt]; rfl

theorem edgeCost_go_usable (pf : String → Option ℚ) (wa : WeightAttr) (m : ℚ) :
    ∀ (l : List EdgeData) (acc : Option ℚ) (d : EdgeData), d ∈ l →
      ∀ w : ℚ, edgeWeight1 pf wa m d = some w →
      (l.foldl (edgeCostStep pf wa m) acc).isSome = true := by
  intro l
  induction l with
  | nil => intro acc d hd; exact absurd hd (List.not_mem_nil d)
  | cons d0 l ih =>
    intro acc d hd w hw
    simp only [List.foldl_cons]
    rcases List.mem_cons.mp hd with rfl | hd2
    · apply edgeCost_go_isSome
      rcases acc with _ | b
      · rw [edgeCostStep_first pf wa m d w hw]; rfl
      · by_cases hlt : w < b
        · rw [edgeCostStep_keep_lt pf wa m d w b hw hlt]; rfl
        · rw [edgeCostStep_keep_ge pf wa m d w b hw hlt]; rfl
    · exact ih _ d hd2 w hw

end AstarMap

namespace AstarMap

/-- C6: for every pair of nodes, if some parallel edge carries usable cost
data then `get_edge_weight` returns the minimum derived cost among the
parallel edges, and if no edge yields a usable cost it returns `+∞`
rather than an error. -/
theorem getEdgeWeight_min_parallel {V : Type} [DecidableEq V] (pf : String → Option ℚ)
    (wa : WeightAttr) (g : RoadGraph V) (a b : V) :
    (∀ d0 ∈ g.edgeData a b, ∀ w0 : ℚ, edgeWeight1 pf wa (g.maxSpeedMps pf) d0 = some w0 →
      ∃ c : ℚ, RoadGraph.getEdgeWeight pf wa g a b = (c : WithTop ℚ) ∧
        (∃ d ∈ g.edgeData a b, edgeWeight1 pf wa (g.maxSpeedMps pf) d = some c) ∧
        (∀ d ∈ g.edgeData a b, ∀ w : ℚ,
          edgeWeight1 pf wa (g.maxSpeedMps pf) d = some w → c ≤ w)) ∧
    ((∀ d ∈ g.edgeData a b, edgeWeight1 pf wa (g.maxSpeedMps pf) d = none) →
      RoadGraph.getEdgeWeight pf wa g a b = ⊤) := by
  constructor
  · intro d0 hd0 w0 hw0
    have hsome : (edgeCost pf wa (g.maxSpeedMps pf) (g.edgeData a b)).isSome = true :=
      edgeCost_go_usable pf wa (g.maxSpeedMps pf) (g.edgeData a b) none d0 hd0 w0 hw0
    rcases hc : edgeCost pf wa (g.maxSpeedMps pf) (g.edgeData a b) with _ | c
    · rw [hc] at hsome; cases hsome
    · refine ⟨c, ?_, ?_, ?_⟩
      · unfold RoadGraph.getEdgeWeight
        rw [hc]
      · rcases edgeCost_go_some pf wa (g.maxSpeedMps pf) (g.edgeData a b) none c hc with
          h1 | h2
        · cases h1
        · exact h2
      · exact (edgeCost_go_le pf wa (g.maxSpeedMps pf) (g.edgeData a b) none c hc).2
  · intro hall
    unfold RoadGraph.getEdgeWeight
    unfold edgeCost
    rw [edgeCost_go_none pf wa (g.maxSpeedMps pf) (g.edgeData a b) none hall]

/-- Witness for `getEdgeWeight_min_parallel`: on the concrete two-node
graph with parallel travel times 5 and 3 the minimum 3 is returned. -/
theorem getEdgeWeight_min_parallel_witness :
    (∃ c : ℚ, RoadGraph.getEdgeWeight parseNone .travelTime graphPar 0 1 = (c : WithTop ℚ) ∧
      (∃ d ∈ graphPar.edgeData 0 1,
        edgeWeight1 parseNone .travelTime (graphPar.maxSpeedMps parseNone) d = some c) ∧
      (∀ d ∈ graphPar.edgeData 0 1, ∀ w : ℚ,
        edgeWeight1 parseNone .travelTime (graphPar.maxSpeedMps parseNone) d = some w →
          c ≤ w)) ∧
    RoadGraph.getEdgeWeight parseNone .travelTime graphPar 0 1 = ((3 : ℚ) : WithTop ℚ) :=
  ⟨(getEdgeWeight_min_parallel parseNone .travelTime graphPar 0 1).1 edgeTT5 (by decide)
      5 (by decide),
    by decide⟩

/-- C3 counterexample: an edge whose `travel_time` attribute is `-5` is
not skipped — `get_neighbors` surfaces the negative cost `-5` and
`get_edge_weight` returns it, contradicting the claim that negative cost
data never reaches the search. -/
theorem getNeighbors_negative_cost_cex :
    (1, (-5 : ℚ)) ∈ RoadGraph.getNeighbors parseNone .travelTime graphTTneg 0 ∧
    RoadGraph.getEdgeWeight parseNone .travelTime graphTTneg 0 1 = ((-5 : ℚ) : WithTop ℚ) ∧
    ((-5 : ℚ) < 0) := by
  decide

theorem edgeWeight1_eq_attr (pf : String → Option ℚ) (wa : WeightAttr) (m : ℚ)
    (d : EdgeData) (q : ℚ) (hc : coerceFloat pf (d.getW wa) = some q) :
    edgeWeight1 pf wa m d = some q := by
  unfold edgeWeight1
  rw [hc]

theorem edgeWeight1_eq_fallback (pf : String → Option ℚ) (wa : WeightAttr) (m : ℚ)
    (d : EdgeData) (hc : coerceFloat pf (d.getW wa) = none) :
    edgeWeight1 pf wa m d = fallbackWeight pf wa m d := by
  unfold edgeWeight1
  rw [hc]

theorem fallbackWeight_no_len (pf : String → Option ℚ) (wa : WeightAttr) (m : ℚ)
    (d : EdgeData) (hl : coerceFloat pf d.length = none) :
    fallbackWeight pf wa m d = none := by
  unfold fallbackWeight
  rw [hl]

theorem fallbackWeight_tt (pf : String → Option ℚ) (m : ℚ) (d : EdgeData) (len : ℚ)
    (hl : coerceFloat pf d.length = some len) :
    fallbackWeight pf .travelTime m d =
      (if pyOrQ (edgeSpeedMps pf d) m ≤ 0 then none
        else some (len / pyOrQ (edgeSpeedMps pf d) m)) := by
  unfold fallbackWeight
  rw [hl]

theorem fallbackWeight_len (pf : String → Option ℚ) (m : ℚ) (d : EdgeData) (len : ℚ)
    (hl : coerceFloat pf d.length = some len) :
    fallbackWeight pf .length m d = some len := by
  unfold fallbackWeight
  rw [hl]

theorem edgeWeight1_nonneg (pf : String → Option ℚ) (wa : WeightAttr) (m : ℚ)
    (d : EdgeData)
    (hW : ∀ q : ℚ, coerceFloat pf (d.getW wa) = some q → 0 ≤ q)
    (hL : ∀ q : ℚ, coerceFloat pf d.length = some q → 0 ≤ q) :
    ∀ w : ℚ, edgeWeight1 pf wa m d = some w → 0 ≤ w := by
  intro w hw
  rcases hc : coerceFloat pf (d.getW wa) with _ | q
  · rw [edgeWeight1_eq_fallback pf wa m d hc] at hw
    rcases hl : coerceFloat pf d.length with _ | len
    · rw [fallbackWeight_no_len pf wa m d hl] at hw
      cases hw
    · have hlen : 0 ≤ len := hL len hl
      rcases wa with _ | _
      · rw [fallbackWeight_tt pf m d len hl] at hw
        by_cases hsp : pyOrQ (edgeSpeedMps pf d) m ≤ 0
        · rw [if_pos hsp] at hw
          cases hw
        · rw [if_neg hsp] at hw
          cases Option.some_injective ℚ hw
          exact div_nonneg hlen (le_of_not_le hsp)
      · rw [fallbackWeight_len pf m d len hl] at hw
        cases Option.some_injective ℚ hw
        exact hlen
  · rw [edgeWeight1_eq_attr pf wa m d q hc] at hw
    cases Option.some_injective ℚ hw
    exact hW _ hc

/-- C3 (amended): when every present cost attribute (the active weight
attribute and `length`) coerces to a non-negative number, every cost
surfaced by `get_neighbors` is non-negative and `get_edge_weight` is
non-negative; unusable (absent/unparseable) data is skipped rather than
surfaced.  (The unamended claim is refuted by
`getNeighbors_negative_cost_cex`: negative cost data is NOT skipped.) -/
theorem getNeighbors_nonneg {V : Type} [DecidableEq V] (pf : String → Option ℚ)
    (wa : WeightAttr) (g : RoadGraph V)
    (hdata : ∀ v : V, ∀ p ∈ g.succ v, ∀ d ∈ p.2,
      (∀ q : ℚ, coerceFloat pf (d.getW wa) = some q → 0 ≤ q) ∧
      (∀ q : ℚ, coerceFloat pf d.length = some q → 0 ≤ q)) :
    (∀ v : V, ∀ p ∈ RoadGraph.getNeighbors pf wa g v, 0 ≤ p.2) ∧
    (∀ a b : V, 0 ≤ RoadGraph.getEdgeWeight pf wa g a b) := by
  constructor
  · intro v p hp
    unfold RoadGraph.getNeighbors at hp
    rcases List.mem_filterMap.mp hp with ⟨p0, hp0, hmap⟩
    rcases hc : edgeCost pf wa (g.maxSpeedMps pf) p0.2 with _ | c
    · rw [hc] at hmap; cases hmap
    · rw [hc] at hmap
      cases hmap
      rcases edgeCost_go_some pf wa (g.maxSpeedMps pf) p0.2 none c hc with h1 | ⟨d, hd, hw⟩
      · cases h1
      · exact edgeWeight1_nonneg pf wa (g.maxSpeedMps pf) d
          ((hdata v p0 hp0 d hd).1) ((hdata v p0 hp0 d hd).2) c hw
  · intro a b
    unfold RoadGraph.getEdgeWeight
    rcases hc : edgeCost pf wa (g.maxSpeedMps pf) (g.edgeData a b) with _ | c
    · exact le_top
    · rcases edgeCost_go_some pf wa (g.maxSpeedMps pf) (g.edgeData a b) none c hc with
        h1 | ⟨d, hd, hw⟩
      · cases h1
      · have hbundle : ∀ d2 ∈ g.edgeData a b,
            (∀ q : ℚ, coerceFloat pf (d2.getW wa) = some q → 0 ≤ q) ∧
            (∀ q : ℚ, coerceFloat pf d2.length = some q → 0 ≤ q) := by
          intro d2 hd2
          unfold RoadGraph.edgeData at hd2
          rcases hf : (g.succ a).find? (fun p => decide (p.1 = b)) with _ | p0
          · rw [hf] at hd2; cases hd2
          · rw [hf] at hd2
            exact hdata a p0 (List.mem_of_find?_eq_some hf) d2 hd2
        have h0 : (0 : ℚ) ≤ c := edgeWeight1_nonneg pf wa (g.maxSpeedMps pf) d
          ((hbundle d hd).1) ((hbundle d hd).2) c hw
        show (0 : WithTop ℚ) ≤ ((c : ℚ) : WithTop ℚ)
        exact_mod_cast h0

/-- Witness for `getNeighbors_nonneg` on the concrete non-negative graph
`graphTT5`. -/
theorem getNeighbors_nonneg_witness :
    (∀ v : ℕ, ∀ p ∈ RoadGraph.getNeighbors parseNone .travelTime graphTT5 v, 0 ≤ p.2) ∧
    (∀ a b : ℕ, 0 ≤ RoadGraph.getEdgeWeight parseNone .travelTime graphTT5 a b) := by
  apply getNeighbors_nonneg
  intro v p hp d hd
  unfold graphTT5 at hp
  simp only [] at hp
  by_cases hv : v = 0
  · rw [if_pos hv] at hp
    rcases List.mem_singleton.mp hp with rfl
    rcases List.mem_singleton.mp hd with rfl
    exact ⟨by decide, by decide⟩
  · rw [if_neg hv] at hp
    cases hp

end AstarMap

namespace AstarMap

theorem computeMaxSpeed_pos (pf : String → Option ℚ) (l : List EdgeData) :
    0 < computeMaxSpeed pf l := by
  unfold computeMaxSpeed
  by_cases h : maxSpeedFold pf l ≤ 0
  · rw [if_pos h]
    norm_num [DEFAULT_MAX_SPEED_KPH]
  · rw [if_neg h]
    have h1 : 0 < maxSpeedFold pf l := lt_of_not_le h
    have h2 : (0 : ℚ) < 18 / 5 := by norm_num
    exact div_pos h1 h2

/-- C4 counterexample: an edge with `length = 100` and declared
`maxspeed = -10` parses to the negative speed `-10`; the fallback weight
is then `None` — the edge is dropped from `get_neighbors` instead of
being priced with the graph-wide fallback speed, contradicting the claim
that every non-positive parsed speed falls back (leaving the edge
traversable). -/
theorem fallback_negative_speed_cex :
    edgeSpeedKph parseNone edgeNegSpeed = some (-10) ∧
    fallbackWeight parseNone .travelTime (graphNegSpeed.maxSpeedMps parseNone)
      edgeNegSpeed = none ∧
    RoadGraph.getNeighbors parseNone .travelTime graphNegSpeed 0 = [] := by
  refine ⟨rfl, ?_, ?_⟩
  · norm_num [fallbackWeight, coerceFloat, edgeNegSpeed, pyOrQ, edgeSpeedMps,
      edgeSpeedKph, speedOfAttr, pyOr, Attr.truthy, coerceQ]
  · norm_num [RoadGraph.getNeighbors, graphNegSpeed, edgeCost, edgeCostStep,
      edgeWeight1, fallbackWeight, coerceFloat, edgeNegSpeed, pyOrQ, edgeSpeedMps,
      edgeSpeedKph, speedOfAttr, pyOr, Attr.truthy, coerceQ, EdgeData.getW]

/-- C4 (amended): the declared-speed parsing pipeline takes the first
element of a list container and the first semicolon entry, strips
`km/h`/`kph`, converts case-insensitive `mph` by the exact `1.60934`
factor; a parse failure or a parsed `0` falls back to the (always
positive) graph-wide maximum speed, a parsed positive speed is used
directly, and a parsed **negative** speed makes the edge unusable instead
of falling back. -/
theorem speed_parsing_fallback_spec (pf : String → Option ℚ) :
    (∀ x : Attr, ∀ rest : List Attr, (∀ l0 : List Attr, x ≠ Attr.list l0) →
      speedOfAttr pf (some (.list (x :: rest))) = speedOfAttr pf (some x)) ∧
    (∀ s : String, pyContains (pyLower (stripUnits (pySplitFirst ';' s))) "mph" = true →
      speedOfStr pf s =
        (coerceQ pf (pyReplace (pyLower (stripUnits (pySplitFirst ';' s))) "mph" "")).map
          (fun v => v * mphFactor)) ∧
    (∀ s : String, pyContains (pyLower (stripUnits (pySplitFirst ';' s))) "mph" = false →
      speedOfStr pf s = coerceQ pf (stripUnits (pySplitFirst ';' s))) ∧
    (∀ es : List EdgeData, 0 < computeMaxSpeed pf es) ∧
    (∀ d : EdgeData, ∀ len maxS : ℚ, coerceFloat pf d.length = some len → 0 < maxS →
      (edgeSpeedMps pf d = none → fallbackWeight pf .travelTime maxS d = some (len / maxS)) ∧
      (edgeSpeedMps pf d = some 0 → fallbackWeight pf .travelTime maxS d = some (len / maxS)) ∧
      (∀ sp : ℚ, edgeSpeedMps pf d = some sp → 0 < sp →
        fallbackWeight pf .travelTime maxS d = some (len / sp)) ∧
      (∀ sp : ℚ, edgeSpeedMps pf d = some sp → sp < 0 →
        fallbackWeight pf .travelTime maxS d = none)) := by
  refine ⟨?_, ?_, ?_, computeMaxSpeed_pos pf, ?_⟩
  · intro x rest hx
    rcases x with q | s | l0
    · rfl
    · rfl
    · exact absurd rfl (hx l0)
  · intro s h
    unfold speedOfStr
    rw [if_pos h]
    rcases hcq : coerceQ pf (pyReplace (pyLower (stripUnits (pySplitFirst ';' s))) "mph" "")
      with _ | v
    · rfl
    · rfl
  · intro s h
    unfold speedOfStr
    rw [if_neg (by rw [h]; exact Bool.false_ne_true)]
  · intro d len maxS hlen hpos
    have hmax_ne : ¬ maxS ≤ 0 := not_le.mpr hpos
    refine ⟨fun hnone => ?_, fun hzero => ?_, fun sp hsp hsppos => ?_, fun sp hsp hspneg => ?_⟩
    · rw [fallbackWeight_tt pf maxS d len hlen]
      have h1 : pyOrQ (edgeSpeedMps pf d) maxS = maxS := by
        rw [hnone]
        rfl
      rw [h1, if_neg hmax_ne]
    · rw [fallbackWeight_tt pf maxS d len hlen]
      have h1 : pyOrQ (edgeSpeedMps pf d) maxS = maxS := by
        rw [hzero]
        show (if (0 : ℚ) = 0 then maxS else 0) = maxS
        rw [if_pos rfl]
      rw [h1, if_neg hmax_ne]
    · rw [fallbackWeight_tt pf maxS d len hlen]
      have h1 : pyOrQ (edgeSpeedMps pf d) maxS = sp := by
        rw [hsp]
        show (if sp = 0 then maxS else sp) = sp
        rw [if_neg (ne_of_gt hsppos)]
      rw [h1, if_neg (not_le.mpr hsppos)]
    · rw [fallbackWeight_tt pf maxS d len hlen]
      have h1 : pyOrQ (edgeSpeedMps pf d) maxS = sp := by
        rw [hsp]
        show (if sp = 0 then maxS else sp) = sp
        rw [if_neg (ne_of_lt hspneg)]
      rw [h1, if_pos (le_of_lt hspneg)]

end AstarMap

namespace AstarMap

/-- Witness for `speed_parsing_fallback_spec`: a declared `"50"` km/h on a
100 m edge prices it at `100 / (125/9)` seconds, and a literal `"30 mph"`
goes through the mph branch. -/
theorem speed_parsing_fallback_witness :
    fallbackWeight parseQ .travelTime (325 / 9) edgeSpeed50 = some (100 / (125 / 9)) ∧
    speedOfStr parseQ "30 mph" =
      (coerceQ parseQ
          (pyReplace (pyLower (stripUnits (pySplitFirst ';' "30 mph"))) "mph" "")).map
        (fun v => v * mphFactor) := by
  have h0 : edgeSpeedKph parseQ edgeSpeed50 = some ((50 : ℕ) : ℚ) := rfl
  have hsp : edgeSpeedMps parseQ edgeSpeed50 = some (125 / 9) := by
    simp only [edgeSpeedMps, h0, Option.map]
    norm_num
  exact ⟨((speed_parsing_fallback_spec parseQ).2.2.2.2 edgeSpeed50 100 (325 / 9) rfl
        (by norm_num)).2.2.1 (125 / 9) hsp (by norm_num),
    (speed_parsing_fallback_spec parseQ).2.1 "30 mph" (by decide)⟩

end AstarMap

namespace AstarMap

theorem densifyEdge_pass (t : ℚ) (c : ℕ) (e : DenseEdge)
    (h : e.length ≤ t ∨ e.length = 0) : densifyEdge t c e = ([e], c) := by
  unfold densifyEdge
  rw [if_pos h]

theorem densify_count_ge_two (t : ℚ) (e : DenseEdge) (ht : 0 < t) (hgt : t < e.length) :
    2 ≤ (⌈e.length / t⌉ : ℤ).toNat := by
  have h1 : (1 : ℚ) < e.length / t := (one_lt_div ht).mpr hgt
  have h2 : (1 : ℤ) < ⌈e.length / t⌉ := by
    rw [Int.lt_ceil]
    exact_mod_cast h1
  omega

theorem densifyEdge_chain (t : ℚ) (c : ℕ) (e : DenseEdge) (ht : 0 < t)
    (hgt : t < e.length) :
    (densifyEdge t c e).1.map DenseEdge.length =
      List.replicate ((⌈e.length / t⌉ : ℤ).toNat)
        (e.length / (((⌈e.length / t⌉ : ℤ).toNat : ℕ) : ℚ)) := by
  have hn2 := densify_count_ge_two t e ht hgt
  unfold densifyEdge
  rw [if_neg]
  · rw [if_neg (by omega)]
    simp only [List.map_map]
    have : (DenseEdge.length ∘ fun i =>
        ({ src := if i = 0 then e.src
              else if i = (⌈e.length / t⌉ : ℤ).toNat then e.dst else Sum.inr (c + (i - 1)),
           dst := if i + 1 = 0 then e.src
              else if i + 1 = (⌈e.length / t⌉ : ℤ).toNat then e.dst
              else Sum.inr (c + (i + 1 - 1)),
           length := e.length / (((⌈e.length / t⌉ : ℤ).toNat : ℕ) : ℚ) } : DenseEdge)) =
        fun _ => e.length / (((⌈e.length / t⌉ : ℤ).toNat : ℕ) : ℚ) := rfl
    rw [this, List.map_const', List.length_range]
  · rintro (h1 | h2)
    · exact absurd h1 (not_le.mpr hgt)
    · rw [h2] at hgt
      exact absurd (lt_trans ht hgt) (lt_irrefl 0)

theorem densifyEdge_len_counter (t : ℚ) (c : ℕ) (e : DenseEdge) :
    (densifyEdge t c e).1.map DenseEdge.length =
      (densifyEdge t 0 e).1.map DenseEdge.length := by
  unfold densifyEdge
  by_cases h : e.length ≤ t ∨ e.length = 0
  · rw [if_pos h, if_pos h]
  · rw [if_neg h, if_neg h]
    by_cases hn : (⌈e.length / t⌉ : ℤ).toNat ≤ 1
    · rw [if_pos hn, if_pos hn]
    · rw [if_neg hn, if_neg hn]
      simp only [List.map_map]
      rfl

theorem densifyEdges_go (t : ℚ) :
    ∀ (es : List DenseEdge) (acc : List DenseEdge) (c : ℕ),
      ((es.foldl
          (fun acc e =>
            let r := densifyEdge t acc.2 e
            (acc.1 ++ r.1, r.2))
          (acc, c)).1).map DenseEdge.length =
        acc.map DenseEdge.length ++
          es.flatMap (fun e => (densifyEdge t 0 e).1.map DenseEdge.length) := by
  intro es
  induction es with
  | nil =>
    intro acc c
    simp
  | cons e es ih =>
    intro acc c
    simp only [List.foldl_cons, List.flatMap_cons]
    rw [ih (acc ++ (densifyEdge t c e).1) (densifyEdge t c e).2]
    rw [List.map_append, List.append_assoc]
    rw [densifyEdge_len_counter t c e]

/-- C5: with a positive threshold `t`, `densify_edges` keeps every edge of
length at most `t` unchanged and replaces every longer edge by a chain of
`ceil(length / t)` segments of length exactly `length / ceil(length / t)`;
for the long edges the segment count is at least 2, the segment lengths
sum exactly to the original length, and no segment exceeds `t`. -/
theorem densifyEdges_spec (t : ℚ) (ht : 0 < t) (es : List DenseEdge) :
    ((densifyEdges t es).map DenseEdge.length =
      es.flatMap (fun e =>
        if e.length ≤ t then [e.length]
        else List.replicate ((⌈e.length / t⌉ : ℤ).toNat)
          (e.length / (((⌈e.length / t⌉ : ℤ).toNat : ℕ) : ℚ)))) ∧
    (∀ e ∈ es, t < e.length →
      2 ≤ ((⌈e.length / t⌉ : ℤ).toNat) ∧
      (List.replicate ((⌈e.length / t⌉ : ℤ).toNat)
          (e.length / (((⌈e.length / t⌉ : ℤ).toNat : ℕ) : ℚ))).sum = e.length ∧
      (∀ x ∈ List.replicate ((⌈e.length / t⌉ : ℤ).toNat)
          (e.length / (((⌈e.length / t⌉ : ℤ).toNat : ℕ) : ℚ)), x ≤ t)) := by
  constructor
  · unfold densifyEdges
    rw [densifyEdges_go t es [] 0]
    rw [List.map_nil, List.nil_append]
    apply List.flatMap_congr
    intro e _
    by_cases h : e.length ≤ t
    · rw [if_pos h]
      rw [densifyEdge_pass t 0 e (Or.inl h)]
      rfl
    · rw [if_neg h]
      exact densifyEdge_chain t 0 e ht (not_le.mp h)
  · intro e _ hgt
    have hn2 := densify_count_ge_two t e ht hgt
    have hnpos : (0 : ℚ) < (((⌈e.length / t⌉ : ℤ).toNat : ℕ) : ℚ) := by
      exact_mod_cast Nat.lt_of_lt_of_le (by norm_num) hn2
    have hnne : (((⌈e.length / t⌉ : ℤ).toNat : ℕ) : ℚ) ≠ 0 := ne_of_gt hnpos
    refine ⟨hn2, ?_, ?_⟩
    · rw [List.sum_replicate, nsmul_eq_mul]
      exact mul_div_cancel₀ e.length hnne
    · intro x hx
      rw [List.eq_of_mem_replicate hx]
      have hceil : e.length / t ≤ ((⌈e.length / t⌉ : ℤ) : ℚ) := Int.le_ceil (e.length / t)
      have hcast : (((⌈e.length / t⌉ : ℤ).toNat : ℕ) : ℚ) = ((⌈e.length / t⌉ : ℤ) : ℚ) := by
        have h0 : (0 : ℤ) ≤ ⌈e.length / t⌉ := by omega
        exact_mod_cast congrArg (fun z : ℤ => (z : ℚ)) (Int.toNat_of_nonneg h0)
      rw [div_le_iff₀ hnpos, hcast]
      rw [div_le_iff₀ ht] at hceil
      calc e.length ≤ ((⌈e.length / t⌉ : ℤ) : ℚ) * t := hceil
        _ = t * ((⌈e.length / t⌉ : ℤ) : ℚ) := mul_comm _ _

end AstarMap

namespace AstarMap

/-- Witness for `densifyEdges_spec`: a single 250 m edge densified with a
100 m threshold becomes exactly 3 segments of 250/3 ≈ 83.33 m. -/
theorem densifyEdges_spec_witness :
    (densifyEdges 100 [edge250]).map DenseEdge.length = [250 / 3, 250 / 3, 250 / 3] ∧
    (List.replicate ((⌈edge250.length / 100⌉ : ℤ).toNat)
        (edge250.length / (((⌈edge250.length / 100⌉ : ℤ).toNat : ℕ) : ℚ))).sum =
      edge250.length := by
  have h := densifyEdges_spec 100 (by norm_num) [edge250]
  have hceil : (⌈edge250.length / 100⌉ : ℤ) = 3 := by
    rw [show edge250.length / 100 = (5 : ℚ) / 2 by norm_num [edge250]]
    rw [Int.ceil_eq_iff]
    norm_num
  constructor
  · rw [h.1]
    simp only [List.flatMap_cons, List.flatMap_nil, List.append_nil]
    rw [if_neg (by norm_num [edge250])]
    rw [hceil]
    rw [show ((3 : ℤ).toNat : ℕ) = 3 from rfl]
    norm_num [edge250, List.replicate]
  · exact (h.2 edge250 (List.mem_singleton_self edge250) (by norm_num [edge250])).2.1

end AstarMap

namespace AstarMap

/-- C7: a non-positive heuristic speed is rejected at construction (and a
positive one is stored), and a non-positive densification threshold is
rejected before anything else — for every loader state, including an
unloaded one, so no state is ever touched. -/
theorem invalid_config_rejected :
    (∀ s : ℚ, s ≤ 0 → TravelTimeHeuristic.make s =
      Except.error "max_speed_m_s must be positive") ∧
    (∀ s : ℚ, 0 < s → TravelTimeHeuristic.make s = Except.ok ⟨s⟩) ∧
    (∀ m : MapLoader, ∀ t : ℚ, t ≤ 0 → MapLoader.densifyEdges t m =
      Except.error "max_segment_length_m must be greater than zero") := by
  refine ⟨fun s hs => ?_, fun s hs => ?_, fun m t htl => ?_⟩
  · unfold TravelTimeHeuristic.make
    rw [if_pos hs]
  · unfold TravelTimeHeuristic.make
    rw [if_neg (not_le.mpr hs)]
  · unfold MapLoader.densifyEdges
    rw [if_pos htl]

/-- Witness for `invalid_config_rejected` at speeds `0` and `1` and
threshold `0` on a loaded loader. -/
theorem invalid_config_rejected_witness :
    TravelTimeHeuristic.make 0 = Except.error "max_speed_m_s must be positive" ∧
    TravelTimeHeuristic.make 1 = Except.ok ⟨1⟩ ∧
    MapLoader.densifyEdges 0 loaderPar =
      Except.error "max_segment_length_m must be greater than zero" :=
  ⟨invalid_config_rejected.1 0 le_rfl, invalid_config_rejected.2.1 1 one_pos,
    invalid_config_rejected.2.2 loaderPar 0 le_rfl⟩

/-- C8 counterexample: `get_graph_info` on an unloaded loader silently
returns the empty dict (`ok none`) instead of failing with the "not ready"
condition the claim requires. -/
theorem getGraphInfo_unloaded_cex :
    MapLoader.getGraphInfo emptyLoader = Except.ok none ∧
    (Except.ok none : Except String (Option GraphInfo)) ≠ Except.error notReadyMsg :=
  ⟨rfl, nofun⟩

/-- C8 (amended): every graph-reading accessor except `get_graph_info`
fails fast with the "not ready" error when no graph is loaded
(`densify_edges` after its threshold validation); `get_graph_info`
instead silently returns the empty dict. -/
theorem accessors_require_loaded_graph (pf : String → Option ℚ)
    (near : LGraph → ℚ × ℚ → PyNode) (m : MapLoader) (hm : m.graph = none) :
    (∀ t : ℚ, 0 < t → MapLoader.densifyEdges t m = Except.error notReadyMsg) ∧
    (∀ pt : ℚ × ℚ, MapLoader.getNearestNode near m pt = Except.error notReadyMsg) ∧
    (∀ v : PyNode, MapLoader.getNodeCoordinates m v = Except.error notReadyMsg) ∧
    (∀ p : List PyNode, MapLoader.pathToCoordinates m p = Except.error notReadyMsg) ∧
    (∀ p : List PyNode,
      MapLoader.calculatePathMetrics pf m p = Except.error notReadyMsg) ∧
    MapLoader.getGraphInfo m = Except.ok none := by
  have hen : m.ensureGraphLoaded = Except.error notReadyMsg := by
    unfold MapLoader.ensureGraphLoaded
    rw [hm]
  refine ⟨fun t htp => ?_, fun pt => ?_, fun v => ?_, fun p => ?_, fun p => ?_, ?_⟩
  · unfold MapLoader.densifyEdges
    rw [if_neg (not_le.mpr htp), hen]
    rfl
  · unfold MapLoader.getNearestNode
    rw [hen]
    rfl
  · unfold MapLoader.getNodeCoordinates
    rw [hen]
    rfl
  · unfold MapLoader.pathToCoordinates
    rw [hen]
    rfl
  · unfold MapLoader.calculatePathMetrics
    rw [hen]
    rfl
  · unfold MapLoader.getGraphInfo
    rw [hm]

/-- Witness for `accessors_require_loaded_graph` on the fresh loader. -/
theorem accessors_require_loaded_graph_witness :
    MapLoader.densifyEdges 1 emptyLoader = Except.error notReadyMsg ∧
    MapLoader.getNodeCoordinates emptyLoader (Sum.inl 0) = Except.error notReadyMsg ∧
    MapLoader.calculatePathMetrics parseQ emptyLoader [Sum.inl 0, Sum.inl 1] =
      Except.error notReadyMsg ∧
    MapLoader.getGraphInfo emptyLoader = Except.ok none := by
  have h := accessors_require_loaded_graph parseQ (fun _ _ => Sum.inl 0) emptyLoader rfl
  exact ⟨h.1 1 one_pos, h.2.2.1 (Sum.inl 0), h.2.2.2.2.1 [Sum.inl 0, Sum.inl 1], h.2.2.2.2.2⟩

end AstarMap

namespace AstarMap

theorem selectFold_go (pf : String → Option ℚ) :
    ∀ (l : List EdgeData) (acc : Option EdgeData × WithTop ℚ),
      (∀ d0 : EdgeData, acc.1 = some d0 → acc.2 = metricCost pf d0) →
      ((∀ d0 : EdgeData, (l.foldl (selectStep pf) acc).1 = some d0 →
          (l.foldl (selectStep pf) acc).2 = metricCost pf d0 ∧
            (d0 ∈ l ∨ acc.1 = some d0)) ∧
        (∀ d2 ∈ l, (l.foldl (selectStep pf) acc).2 ≤ metricCost pf d2) ∧
        (l.foldl (selectStep pf) acc).2 ≤ acc.2) := by
  intro l
  induction l with
  | nil =>
    intro acc hsome
    refine ⟨fun d0 h0 => ⟨hsome d0 h0, Or.inr h0⟩,
      fun d2 hd2 => absurd hd2 (List.not_mem_nil d2), le_refl _⟩
  | cons d l ih =>
    intro acc hsome
    simp only [List.foldl_cons]
    have hstep_some : ∀ d0 : EdgeData, (selectStep pf acc d).1 = some d0 →
        (selectStep pf acc d).2 = metricCost pf d0 := by
      intro d0 h0
      unfold selectStep at h0 ⊢
      by_cases hlt : metricCost pf d < acc.2
      · rw [if_pos hlt] at h0 ⊢
        cases h0
        rfl
      · rw [if_neg hlt] at h0 ⊢
        exact hsome d0 h0
    obtain ⟨ha, hb, hc⟩ := ih (selectStep pf acc d) hstep_some
    have hstep_le_acc : (selectStep pf acc d).2 ≤ acc.2 := by
      unfold selectStep
      by_cases hlt : metricCost pf d < acc.2
      · rw [if_pos hlt]
        exact le_of_lt hlt
      · rw [if_neg hlt]
    have hstep_le_d : (selectStep pf acc d).2 ≤ metricCost pf d := by
      unfold selectStep
      by_cases hlt : metricCost pf d < acc.2
      · rw [if_pos hlt]
      · rw [if_neg hlt]
        exact le_of_not_lt hlt
    refine ⟨fun d0 h0 => ?_, fun d2 hd2 => ?_, le_trans hc hstep_le_acc⟩
    · obtain ⟨h1, h2⟩ := ha d0 h0
      refine ⟨h1, ?_⟩
      rcases h2 with h2 | h2
      · exact Or.inl (List.mem_cons_of_mem d h2)
      · unfold selectStep at h2
        by_cases hlt : metricCost pf d < acc.2
        · rw [if_pos hlt] at h2
          cases h2
          exact Or.inl (List.mem_cons_self d l)
        · rw [if_neg hlt] at h2
          exact Or.inr h2
    · rcases List.mem_cons.mp hd2 with rfl | h2
      · exact le_trans hc hstep_le_d
      · exact hb d2 h2

theorem selectBestEdge_min (pf : String → Option ℚ) (l : List EdgeData) (d : EdgeData)
    (h : selectBestEdge pf l = some d) :
    d ∈ l ∧ metricCost pf d ≠ ⊤ ∧ ∀ d2 ∈ l, metricCost pf d ≤ metricCost pf d2 := by
  unfold selectBestEdge at h
  by_cases hemp : l.isEmpty
  · rw [if_pos hemp] at h
    cases h
  · rw [if_neg hemp] at h
    by_cases htop : (l.foldl (selectStep pf) (none, ⊤)).2 = ⊤
    · rw [if_pos htop] at h
      cases h
    · rw [if_neg htop] at h
      obtain ⟨ha, hb, _⟩ := selectFold_go pf l (none, ⊤) (fun d0 h0 => by cases h0)
      obtain ⟨h1, h2⟩ := ha d h
      have hd_mem : d ∈ l := by
        rcases h2 with h2 | h2
        · exact h2
        · cases h2
      refine ⟨hd_mem, ?_, fun d2 hd2 => ?_⟩
      · rw [← h1]
        exact htop
      · rw [← h1]
        exact hb d2 hd2

/-- C9 counterexample: a single parallel edge with numeric `length = 100`
but unparseable `travel_time = "abc"` satisfies the claim's premise, is
selected, and then `calculate_path_metrics` raises a conversion error
instead of reporting `distance_m = 100` with `edge_count = 1`. -/
theorem calculatePathMetrics_raises_cex :
    selectBestEdge parseQ (lgraphBadTT.bundles (Sum.inl 0) (Sum.inl 1)) = some edgeBadTT ∧
    edgeBadTT.length = some (.num 100) ∧
    MapLoader.calculatePathMetrics parseQ loaderBadTT [Sum.inl 0, Sum.inl 1] =
      Except.error "ValueError: could not convert edge attribute" := by
  refine ⟨rfl, rfl, rfl⟩

end AstarMap

namespace AstarMap

/-- C9 (amended): for a two-node path whose bundle has a usable edge,
`calculate_path_metrics` selects the minimum-selection-cost parallel edge
and — provided that edge's `length` is numeric and its `travel_time`, when
present, is float-convertible — reports `distance_m` equal to that edge's
length attribute with `edge_count = 1`.  (Without the convertibility
proviso the method can raise, see `calculatePathMetrics_raises_cex`.) -/
theorem calculatePathMetrics_single_edge (pf : String → Option ℚ) (g : LGraph)
    (pn : Option String) (ms : ℚ) (a b : PyNode) (d : EdgeData) (lv : ℚ)
    (hsel : selectBestEdge pf (g.bundles a b) = some d)
    (hlen : d.length = some (.num lv))
    (htt : d.travel_time = none ∨
      ∃ av : Attr, d.travel_time = some av ∧ ∃ q : ℚ, pyFloatAttr pf av = some q) :
    (∃ tt : ℚ,
      MapLoader.calculatePathMetrics pf ⟨some g, pn, ms⟩ [a, b] =
        Except.ok ⟨lv, tt, 1⟩) ∧
    d ∈ g.bundles a b ∧ metricCost pf d ≠ ⊤ ∧
    (∀ d2 ∈ g.bundles a b, metricCost pf d ≤ metricCost pf d2) := by
  have hmin := selectBestEdge_min pf (g.bundles a b) d hsel
  have hem : ∃ tt : ℚ, edgeMetrics pf ms d = some (lv, tt) := by
    rcases htt with h | ⟨av, hav, q, hq⟩
    · refine ⟨lengthToTravelTime pf ms lv d, ?_⟩
      unfold edgeMetrics
      rw [hlen, h]
      rfl
    · refine ⟨q, ?_⟩
      unfold edgeMetrics
      rw [hlen, hav]
      show Option.map (fun tt => (lv, tt)) (pyFloatAttr pf av) = some (lv, q)
      rw [hq]
      rfl
  rcases hem with ⟨tt, hem⟩
  refine ⟨⟨tt, ?_⟩, hmin.1, hmin.2.1, hmin.2.2⟩
  simp only [MapLoader.calculatePathMetrics, MapLoader.ensureGraphLoaded, List.tail_cons,
    List.zip_cons_cons, List.zip_nil_right, List.foldl_cons, List.foldl_nil,
    metricsStep, Except.bind, Except.map, hsel, hem]
  norm_num

/-- Witness for `calculatePathMetrics_single_edge`: of the two parallel
edges the one with travel time 5 (length 200) is selected and the metrics
report distance 200 with one edge. -/
theorem calculatePathMetrics_single_edge_witness :
    (∃ tt : ℚ,
      MapLoader.calculatePathMetrics parseQ ⟨some lgraphPar, none, 325 / 9⟩
        [Sum.inl 0, Sum.inl 1] = Except.ok ⟨200, tt, 1⟩) ∧
    edgeTT5Len ∈ lgraphPar.bundles (Sum.inl 0) (Sum.inl 1) ∧
    metricCost parseQ edgeTT5Len ≠ ⊤ ∧
    (∀ d2 ∈ lgraphPar.bundles (Sum.inl 0) (Sum.inl 1),
      metricCost parseQ edgeTT5Len ≤ metricCost parseQ d2) :=
  calculatePathMetrics_single_edge parseQ lgraphPar none (325 / 9) (Sum.inl 0) (Sum.inl 1)
    edgeTT5Len 200 rfl rfl (Or.inr ⟨.num 5, rfl, 5, rfl⟩)

end AstarMap

namespace AstarMap

/-! ## Heap and loop-step lemmas -/

theorem heapMin_fold_mem {V : Type} [LinearOrder V] :
    ∀ (es : List (ℚ × V)) (b : ℚ × V),
      es.foldl (fun b x => if x.1 < b.1 ∨ (x.1 = b.1 ∧ x.2 < b.2) then x else b) b = b ∨
      es.foldl (fun b x => if x.1 < b.1 ∨ (x.1 = b.1 ∧ x.2 < b.2) then x else b) b ∈ es := by
  intro es
  induction es with
  | nil => intro b; exact Or.inl rfl
  | cons x es ih =>
    intro b
    simp only [List.foldl_cons]
    by_cases hc : x.1 < b.1 ∨ (x.1 = b.1 ∧ x.2 < b.2)
    · rw [if_pos hc]
      rcases ih x with h | h
      · refine Or.inr ?_
        rw [h]
        exact List.mem_cons_self x es
      · exact Or.inr (List.mem_cons_of_mem x h)
    · rw [if_neg hc]
      rcases ih b with h | h
      · exact Or.inl h
      · exact Or.inr (List.mem_cons_of_mem x h)

theorem heapMin_fold_le {V : Type} [LinearOrder V] :
    ∀ (es : List (ℚ × V)) (b : ℚ × V),
      (es.foldl (fun b x => if x.1 < b.1 ∨ (x.1 = b.1 ∧ x.2 < b.2) then x else b) b).1 ≤ b.1 ∧
      ∀ x ∈ es,
        (es.foldl (fun b x => if x.1 < b.1 ∨ (x.1 = b.1 ∧ x.2 < b.2) then x else b) b).1 ≤ x.1 := by
  intro es
  induction es with
  | nil =>
    intro b
    exact ⟨le_refl _, fun x hx => absurd hx (List.not_mem_nil x)⟩
  | cons x es ih =>
    intro b
    simp only [List.foldl_cons]
    by_cases hc : x.1 < b.1 ∨ (x.1 = b.1 ∧ x.2 < b.2)
    · rw [if_pos hc]
      obtain ⟨h1, h2⟩ := ih x
      have hxb : x.1 ≤ b.1 := by
        rcases hc with hc | hc
        · exact le_of_lt hc
        · exact le_of_eq hc.1
      refine ⟨le_trans h1 hxb, fun y hy => ?_⟩
      rcases List.mem_cons.mp hy with rfl | hy2
      · exact h1
      · exact h2 y hy2
    · rw [if_neg hc]
      obtain ⟨h1, h2⟩ := ih b
      have hbx : b.1 ≤ x.1 := by
        rcases lt_or_le b.1 x.1 with h | h
        · exact le_of_lt h
        · rcases lt_or_eq_of_le h with h3 | h3
          · exact absurd (Or.inl h3) hc
          · exact le_of_eq h3.symm
      refine ⟨h1, fun y hy => ?_⟩
      rcases List.mem_cons.mp hy with rfl | hy2
      · exact le_trans h1 hbx
      · exact h2 y hy2

theorem heapMin_mem {V : Type} [LinearOrder V] {l : List (ℚ × V)} {m : ℚ × V}
    (h : heapMin l = some m) : m ∈ l := by
  rcases l with _ | ⟨e, es⟩
  · cases h
  · unfold heapMin at h
    have h2 := Option.some_injective _ h
    rcases heapMin_fold_mem es e with h1 | h1
    · rw [← h2, h1]
      exact List.mem_cons_self e es
    · rw [← h2]
      exact List.mem_cons_of_mem e h1

theorem heapMin_le {V : Type} [LinearOrder V] {l : List (ℚ × V)} {m : ℚ × V}
    (h : heapMin l = some m) : ∀ x ∈ l, m.1 ≤ x.1 := by
  rcases l with _ | ⟨e, es⟩
  · cases h
  · unfold heapMin at h
    have h2 := Option.some_injective _ h
    intro x hx
    rcases List.mem_cons.mp hx with rfl | hx2
    · rw [← h2]
      exact (heapMin_fold_le es x).1
    · rw [← h2]
      exact (heapMin_fold_le es e).2 x hx2

theorem popMin_spec {V : Type} [LinearOrder V] {l : List (ℚ × V)} {e : ℚ × V}
    {rest : List (ℚ × V)} (h : popMin l = some (e, rest)) :
    e ∈ l ∧ rest = l.erase e ∧ ∀ x ∈ l, e.1 ≤ x.1 := by
  unfold popMin at h
  rcases hm : heapMin l with _ | m
  · rw [hm] at h
    cases h
  · rw [hm, Option.map_some'] at h
    have h2 := Option.some_injective _ h
    have he : m = e := congrArg Prod.fst h2
    have hr : l.erase m = rest := congrArg Prod.snd h2
    subst he
    exact ⟨heapMin_mem hm, hr.symm, heapMin_le hm⟩

theorem popMin_none {V : Type} [LinearOrder V] {l : List (ℚ × V)}
    (h : popMin l = none) : l = [] := by
  rcases l with _ | ⟨e, es⟩
  · rfl
  · unfold popMin heapMin at h
    rw [Option.map_some'] at h
    cases h

theorem astarLoop_found {V : Type} [LinearOrder V] (adj : V → List (V × ℚ)) (h : V → ℚ)
    (goal : V) (fuel : ℕ) (st : AStarState V) (e : ℚ × V) (rest : List (ℚ × V))
    (hpop : popMin st.openl = some (e, rest)) (hgoal : e.2 = goal) :
    astarLoop adj h goal (fuel + 1) st =
      some (reconstructPath st.cameFrom (fuel + 1) e.2,
        ((gget st e.2 : ℚ) : WithTop ℚ)) := by
  unfold astarLoop
  rw [hpop]
  show (if e.2 = goal then
      some (reconstructPath st.cameFrom (fuel + 1) e.2, ((gget st e.2 : ℚ) : WithTop ℚ))
    else astarLoop adj h goal fuel (relaxAll adj h e.2 { st with openl := rest })) = _
  rw [if_pos hgoal]

theorem astarLoop_empty {V : Type} [LinearOrder V] (adj : V → List (V × ℚ)) (h : V → ℚ)
    (goal : V) (fuel : ℕ) (st : AStarState V) (hpop : popMin st.openl = none) :
    astarLoop adj h goal (fuel + 1) st = some ([], ⊤) := by
  unfold astarLoop
  rw [hpop]

theorem astarLoop_cont {V : Type} [LinearOrder V] (adj : V → List (V × ℚ)) (h : V → ℚ)
    (goal : V) (fuel : ℕ) (st : AStarState V) (e : ℚ × V) (rest : List (ℚ × V))
    (hpop : popMin st.openl = some (e, rest)) (hne : e.2 ≠ goal) :
    astarLoop adj h goal (fuel + 1) st =
      astarLoop adj h goal fuel (relaxAll adj h e.2 { st with openl := rest }) := by
  conv_lhs => unfold astarLoop
  rw [hpop]
  show (if e.2 = goal then
      some (reconstructPath st.cameFrom (fuel + 1) e.2, ((gget st e.2 : ℚ) : WithTop ℚ))
    else astarLoop adj h goal fuel (relaxAll adj h e.2 { st with openl := rest })) = _
  rw [if_neg hne]

theorem dijkstraMinNode_none {V : Type} {dist : V → WithTop ℚ} {l : List V}
    (h : dijkstraMinNode dist l = none) : l = [] := by
  rcases l with _ | ⟨v, rest⟩
  · rfl
  · cases h

theorem dijkstraLoop_zero {V : Type} [DecidableEq V] (adj : V → List (V × ℚ)) (goal : V)
    (U : List V) (dp : (V → WithTop ℚ) × (V → Option V)) :
    dijkstraLoop adj goal 0 U dp = dp := rfl

theorem dijkstraLoop_empty {V : Type} [DecidableEq V] (adj : V → List (V × ℚ)) (goal : V)
    (fuel : ℕ) (U : List V) (dp : (V → WithTop ℚ) × (V → Option V))
    (hmin : dijkstraMinNode dp.1 U = none) :
    dijkstraLoop adj goal (fuel + 1) U dp = dp := by
  unfold dijkstraLoop
  rw [hmin]

theorem dijkstraLoop_goal {V : Type} [DecidableEq V] (adj : V → List (V × ℚ)) (goal : V)
    (fuel : ℕ) (U : List V) (dp : (V → WithTop ℚ) × (V → Option V))
    (hmin : dijkstraMinNode dp.1 U = some goal) :
    dijkstraLoop adj goal (fuel + 1) U dp = dp := by
  unfold dijkstraLoop
  rw [hmin]
  show (if goal = goal then dp
    else if dp.1 goal = ⊤ then dp
    else dijkstraLoop adj goal fuel (U.erase goal) (drelaxAll adj goal dp)) = dp
  rw [if_pos rfl]

theorem dijkstraLoop_inf {V : Type} [DecidableEq V] (adj : V → List (V × ℚ)) (goal : V)
    (fuel : ℕ) (U : List V) (dp : (V → WithTop ℚ) × (V → Option V)) (cur : V)
    (hmin : dijkstraMinNode dp.1 U = some cur) (hne : cur ≠ goal)
    (hinf : dp.1 cur = ⊤) :
    dijkstraLoop adj goal (fuel + 1) U dp = dp := by
  unfold dijkstraLoop
  rw [hmin]
  show (if cur = goal then dp
    else if dp.1 cur = ⊤ then dp
    else dijkstraLoop adj goal fuel (U.erase cur) (drelaxAll adj cur dp)) = dp
  rw [if_neg hne, if_pos hinf]

theorem dijkstraLoop_cont {V : Type} [DecidableEq V] (adj : V → List (V × ℚ)) (goal : V)
    (fuel : ℕ) (U : List V) (dp : (V → WithTop ℚ) × (V → Option V)) (cur : V)
    (hmin : dijkstraMinNode dp.1 U = some cur) (hne : cur ≠ goal)
    (hfin : ¬ dp.1 cur = ⊤) :
    dijkstraLoop adj goal (fuel + 1) U dp =
      dijkstraLoop adj goal fuel (U.erase cur) (drelaxAll adj cur dp) := by
  conv_lhs => unfold dijkstraLoop
  rw [hmin]
  show (if cur = goal then dp
    else if dp.1 cur = ⊤ then dp
    else dijkstraLoop adj goal fuel (U.erase cur) (drelaxAll adj cur dp)) = _
  rw [if_neg hne, if_neg hfin]

/-! ## Reachability lemmas -/

theorem Reach.nonneg {V : Type} {adj : V → List (V × ℚ)}
    (hnn : ∀ v : V, ∀ p ∈ adj v, 0 ≤ p.2) {u v : V} {c : ℚ}
    (h : Reach adj u v c) : 0 ≤ c := by
  induction h with
  | refl => exact le_refl 0
  | tail h1 h2 ih => exact add_nonneg ih (hnn _ _ h2)

theorem Reach.single {V : Type} {adj : V → List (V × ℚ)} {u v : V} {c : ℚ}
    (h : (v, c) ∈ adj u) : Reach adj u v c := by
  have h2 := Reach.tail (Reach.refl u) h
  rwa [zero_add] at h2

theorem Reach.trans_r {V : Type} {adj : V → List (V × ℚ)} {u w v : V} {a b : ℚ}
    (h1 : Reach adj u w a) (h2 : Reach adj w v b) : Reach adj u v (a + b) := by
  induction h2 with
  | refl => rwa [add_zero]
  | tail hr hmem ih =>
    rw [← add_assoc]
    exact Reach.tail ih hmem

theorem Reach.mem_nodes {V : Type} {adj : V → List (V × ℚ)} {nodes : List V}
    (hclosed : ∀ v ∈ nodes, ∀ p ∈ adj v, p.1 ∈ nodes) {start v : V} {c : ℚ}
    (hstart : start ∈ nodes) (h : Reach adj start v c) : v ∈ nodes := by
  induction h with
  | refl => exact hstart
  | tail h1 h2 ih => exact hclosed _ ih _ h2

end AstarMap

namespace AstarMap

theorem dijkstraMinNode_fold_unique {V : Type} (dist : V → WithTop ℚ) (s : V)
    (hs : dist s < ⊤) :
    ∀ (l : List V) (b : V), (∀ u ∈ l, u ≠ s → dist u = ⊤) → (b = s ∨ dist b = ⊤) →
      (s ∈ l ∨ b = s) →
      l.foldl (fun b u => if dist u < dist b then u else b) b = s := by
  intro l
  induction l with
  | nil =>
    intro b _ _ hmem
    rcases hmem with hmem | hmem
    · exact absurd hmem (List.not_mem_nil s)
    · exact hmem
  | cons u l ih =>
    intro b hall hb hmem
    simp only [List.foldl_cons]
    have hall2 : ∀ x ∈ l, x ≠ s → dist x = ⊤ :=
      fun x hx => hall x (List.mem_cons_of_mem u hx)
    by_cases hu : u = s
    · by_cases hlt : dist u < dist b
      · rw [if_pos hlt]
        exact ih u hall2 (Or.inl hu) (Or.inr hu)
      · rw [if_neg hlt]
        rcases hb with hb | hb
        · exact ih b hall2 (Or.inl hb) (Or.inr hb)
        · exfalso
          apply hlt
          rw [hb, hu]
          exact hs
    · have hut : dist u = ⊤ := hall u (List.mem_cons_self u l) hu
      have hnotlt : ¬ dist u < dist b := by
        rw [hut]
        exact fun hc => absurd hc (by simp)
      rw [if_neg hnotlt]
      apply ih b hall2 hb
      rcases hmem with hmem | hmem
      · rcases List.mem_cons.mp hmem with rfl | hmem2
        · exact absurd rfl hu
        · exact Or.inl hmem2
      · exact Or.inr hmem

theorem dijkstraMinNode_self {V : Type} (dist : V → WithTop ℚ) (s : V) (l : List V)
    (hmem : s ∈ l) (hs : dist s < ⊤) (hother : ∀ u ∈ l, u ≠ s → dist u = ⊤) :
    dijkstraMinNode dist l = some s := by
  rcases l with _ | ⟨v, rest⟩
  · exact absurd hmem (List.not_mem_nil s)
  · unfold dijkstraMinNode
    show some (rest.foldl (fun b u => if dist u < dist b then u else b) v) = some s
    congr 1
    apply dijkstraMinNode_fold_unique dist s hs rest v
      (fun u hu => hother u (List.mem_cons_of_mem v hu))
    · by_cases hv : v = s
      · exact Or.inl hv
      · exact Or.inr (hother v (List.mem_cons_self v rest) hv)
    · rcases List.mem_cons.mp hmem with rfl | hmem2
      · exact Or.inr rfl
      · exact Or.inl hmem2

theorem dijkstraReconstruct_root {V : Type} (prev : V → Option V) (s : V)
    (hp : prev s = none) : ∀ n : ℕ, dijkstraReconstruct prev n s = [s] := by
  intro n
  rcases n with _ | n
  · rfl
  · unfold dijkstraReconstruct
    rw [hp]

/-- C10: for a node present in the graph, `find_path(s, s)` returns the
single-node path `[s]` with cost `0`, for both the A* and the Dijkstra
implementation (A* needs only non-zero fuel; the start-equals-goal query
resolves on the first pop). -/
theorem find_path_self {V : Type} [LinearOrder V] (adj : V → List (V × ℚ)) (h : V → ℚ)
    (nodes : List V) (s : V) (hs : s ∈ nodes) (fuel : ℕ) :
    astarFindPath (fuel + 1) adj h s s = some ([s], ((0 : ℚ) : WithTop ℚ)) ∧
    dijkstraFindPath adj nodes s s = ([s], ((0 : ℚ) : WithTop ℚ)) := by
  constructor
  · unfold astarFindPath
    have hpop : popMin (astarInit s : AStarState V).openl =
        some ((((0 : ℚ), s) : ℚ × V), ([] : List (ℚ × V))) := by
      show popMin [((0 : ℚ), s)] = some (((0 : ℚ), s), [])
      unfold popMin heapMin
      simp only [List.foldl_nil, Option.map_some']
      rw [List.erase_cons_head]
    rw [astarLoop_found adj h s fuel (astarInit s) ((0 : ℚ), s) [] hpop rfl]
    have hcf : (astarInit s : AStarState V).cameFrom s = some none := by
      show (if s = s then some (none : Option V) else none) = some none
      rw [if_pos rfl]
    have hrec : reconstructPath (astarInit s : AStarState V).cameFrom (fuel + 1) s = [s] := by
      unfold reconstructPath
      rw [hcf]
    have hgg : gget (astarInit s : AStarState V) s = 0 := by
      unfold gget
      show ((if s = s then some (0 : ℚ) else none) : Option ℚ).getD 0 = 0
      rw [if_pos rfl]
      rfl
    rw [hrec, hgg]
  · unfold dijkstraFindPath
    have hsd : s ∈ nodes.dedup := List.mem_dedup.mpr hs
    have hpos : 0 < nodes.dedup.length := List.length_pos.mpr (List.ne_nil_of_mem hsd)
    have hd0 : (dijkstraInit s : (V → WithTop ℚ) × (V → Option V)).1 s =
        ((0 : ℚ) : WithTop ℚ) := by
      show (if s = s then ((0 : ℚ) : WithTop ℚ) else ⊤) = ((0 : ℚ) : WithTop ℚ)
      rw [if_pos rfl]
    have hmin : dijkstraMinNode (dijkstraInit s : (V → WithTop ℚ) × (V → Option V)).1
        nodes.dedup = some s := by
      apply dijkstraMinNode_self _ s nodes.dedup hsd
      · rw [hd0]
        exact WithTop.coe_lt_top 0
      · intro u _ hu
        show (if u = s then ((0 : ℚ) : WithTop ℚ) else ⊤) = ⊤
        rw [if_neg hu]
    have hloop : dijkstraLoop adj s nodes.dedup.length nodes.dedup (dijkstraInit s) =
        dijkstraInit s := by
      rcases hlen : nodes.dedup.length with _ | n
      · rfl
      · exact dijkstraLoop_goal adj s n nodes.dedup (dijkstraInit s) hmin
    rw [hloop]
    rw [dijkstraReconstruct_root _ s rfl nodes.length, hd0]

end AstarMap

namespace AstarMap

/-- Witness for `find_path_self` on the edgeless two-node graph. -/
theorem find_path_self_witness :
    astarFindPath 1 emptyAdj (fun _ => 0) 0 0 = some ([0], ((0 : ℚ) : WithTop ℚ)) ∧
    dijkstraFindPath emptyAdj [0, 1] 0 0 = ([0], ((0 : ℚ) : WithTop ℚ)) :=
  find_path_self emptyAdj (fun _ => 0) [0, 1] 0 (by decide) 0

end AstarMap

namespace AstarMap

/-! ## Relaxation equations and invariant preservation -/

theorem relaxOne_new {V : Type} [DecidableEq V] (h : V → ℚ) (current : V)
    (s : AStarState V) (p : V × ℚ) (hg : s.gScore p.1 = none) :
    relaxOne h current s p = relaxUpd h current s p (gget s current + p.2) := by
  unfold relaxOne
  rw [hg]

theorem relaxOne_improve {V : Type} [DecidableEq V] (h : V → ℚ) (current : V)
    (s : AStarState V) (p : V × ℚ) (g : ℚ) (hg : s.gScore p.1 = some g)
    (hlt : gget s current + p.2 < g) :
    relaxOne h current s p = relaxUpd h current s p (gget s current + p.2) := by
  unfold relaxOne
  rw [hg]
  show (if gget s current + p.2 < g then relaxUpd h current s p (gget s current + p.2)
    else s) = _
  rw [if_pos hlt]

theorem relaxOne_keep {V : Type} [DecidableEq V] (h : V → ℚ) (current : V)
    (s : AStarState V) (p : V × ℚ) (g : ℚ) (hg : s.gScore p.1 = some g)
    (hge : ¬ gget s current + p.2 < g) : relaxOne h current s p = s := by
  unfold relaxOne
  rw [hg]
  show (if gget s current + p.2 < g then relaxUpd h current s p (gget s current + p.2)
    else s) = _
  rw [if_neg hge]

theorem relaxUpd_gScore {V : Type} [DecidableEq V] (h : V → ℚ) (current : V)
    (s : AStarState V) (p : V × ℚ) (tg : ℚ) (v : V) :
    (relaxUpd h current s p tg).gScore v = if v = p.1 then some tg else s.gScore v := rfl

theorem relaxUpd_openl {V : Type} [DecidableEq V] (h : V → ℚ) (current : V)
    (s : AStarState V) (p : V × ℚ) (tg : ℚ) :
    (relaxUpd h current s p tg).openl = (tg + h p.1, p.1) :: s.openl := rfl

theorem gget_of_some {V : Type} (s : AStarState V) (v : V) (c : ℚ)
    (hc : s.gScore v = some c) : gget s v = c := by
  unfold gget
  rw [hc]
  rfl

theorem relaxOne_AUn {V : Type} [DecidableEq V] (adj : V → List (V × ℚ)) (h : V → ℚ)
    (start current : V) (s : AStarState V) (p : V × ℚ) (hp : p ∈ adj current)
    (hcur : ∃ gc, s.gScore current = some gc) (hun : AUn adj start s) :
    AUn adj start (relaxOne h current s p) ∧
      ∃ gc, (relaxOne h current s p).gScore current = some gc := by
  obtain ⟨gc, hgc⟩ := hcur
  have hgg : gget s current = gc := gget_of_some s current gc hgc
  have hupd : AUn adj start (relaxUpd h current s p (gget s current + p.2)) ∧
      ∃ g2, (relaxUpd h current s p (gget s current + p.2)).gScore current = some g2 := by
    constructor
    · constructor
      · intro v c hv
        rw [relaxUpd_gScore] at hv
        by_cases hvp : v = p.1
        · rw [if_pos hvp] at hv
          have hcv := Option.some_injective ℚ hv
          rw [← hcv, hgg]
          have hr : Reach adj start current gc := hun.g_reach current gc hgc
          have h2 := Reach.tail hr hp
          subst hvp
          exact h2
        · rw [if_neg hvp] at hv
          exact hun.g_reach v c hv
      · intro e he
        rw [relaxUpd_openl] at he
        rcases List.mem_cons.mp he with rfl | he2
        · exact ⟨gget s current + p.2, by rw [relaxUpd_gScore, if_pos rfl]⟩
        · obtain ⟨c, hc1⟩ := hun.open_g e he2
          by_cases hvp : e.2 = p.1
          · exact ⟨gget s current + p.2, by rw [relaxUpd_gScore, if_pos hvp]⟩
          · exact ⟨c, by rw [relaxUpd_gScore, if_neg hvp]; exact hc1⟩
    · by_cases hvp : current = p.1
      · exact ⟨gget s current + p.2, by rw [relaxUpd_gScore, if_pos hvp]⟩
      · exact ⟨gc, by rw [relaxUpd_gScore, if_neg hvp]; exact hgc⟩
  rcases hg : s.gScore p.1 with _ | g
  · rw [relaxOne_new h current s p hg]
    exact hupd
  · by_cases hlt : gget s current + p.2 < g
    · rw [relaxOne_improve h current s p g hg hlt]
      exact hupd
    · rw [relaxOne_keep h current s p g hg hlt]
      exact ⟨hun, gc, hgc⟩

theorem relaxFold_AUn {V : Type} [DecidableEq V] (adj : V → List (V × ℚ)) (h : V → ℚ)
    (start current : V) :
    ∀ (l : List (V × ℚ)), (∀ p ∈ l, p ∈ adj current) → ∀ s : AStarState V,
      AUn adj start s → (∃ gc, s.gScore current = some gc) →
      AUn adj start (l.foldl (relaxOne h current) s) := by
  intro l
  induction l with
  | nil => intro _ s hun _; exact hun
  | cons p l ih =>
    intro hsub s hun hcur
    simp only [List.foldl_cons]
    obtain ⟨hun2, hcur2⟩ := relaxOne_AUn adj h start current s p
      (hsub p (List.mem_cons_self p l)) hcur hun
    exact ih (fun q hq => hsub q (List.mem_cons_of_mem p hq)) _ hun2 hcur2

theorem relaxAll_AUn {V : Type} [DecidableEq V] (adj : V → List (V × ℚ)) (h : V → ℚ)
    (start current : V) (s : AStarState V)
    (hun : AUn adj start s) (hcur : ∃ gc, s.gScore current = some gc) :
    AUn adj start (relaxAll adj h current s) :=
  relaxFold_AUn adj h start current (adj current) (fun _ hp => hp) s hun hcur

theorem astarLoop_unreachable {V : Type} [LinearOrder V] (adj : V → List (V × ℚ))
    (h : V → ℚ) (start goal : V)
    (hunreach : ∀ c : ℚ, ¬ Reach adj start goal c) :
    ∀ (fuel : ℕ) (s : AStarState V), AUn adj start s →
      ∀ (p : List V) (c : WithTop ℚ), astarLoop adj h goal fuel s = some (p, c) →
        p = [] ∧ c = ⊤ := by
  intro fuel
  induction fuel with
  | zero =>
    intro s _ p c hrun
    cases hrun
  | succ fuel ih =>
    intro s hun p c hrun
    rcases hpop : popMin s.openl with _ | ⟨e, rest⟩
    · rw [astarLoop_empty adj h goal fuel s hpop] at hrun
      simp only [Option.some.injEq, Prod.mk.injEq] at hrun
      exact ⟨hrun.1.symm, hrun.2.symm⟩
    · by_cases hgoal : e.2 = goal
      · exfalso
        obtain ⟨c0, hc0⟩ := hun.open_g e (popMin_spec hpop).1
        have hr := hun.g_reach e.2 c0 hc0
        rw [hgoal] at hr
        exact hunreach c0 hr
      · rw [astarLoop_cont adj h goal fuel s e rest hpop hgoal] at hrun
        refine ih _ ?_ p c hrun
        obtain ⟨hmem, hrest, _⟩ := popMin_spec hpop
        have hs0 : AUn adj start ({ s with openl := rest } : AStarState V) := by
          constructor
          · exact hun.g_reach
          · intro e2 he2
            apply hun.open_g e2
            rw [hrest] at he2
            exact List.erase_subset _ _ he2
        have hcur : ∃ gc, ({ s with openl := rest } : AStarState V).gScore e.2 = some gc :=
          hun.open_g e hmem
        exact relaxAll_AUn adj h start e.2 _ hs0 hcur

end AstarMap

namespace AstarMap

/-! ## Dijkstra: the unreachable-goal analysis -/

theorem drelaxOne_lt {V : Type} [DecidableEq V] (current : V)
    (dp : (V → WithTop ℚ) × (V → Option V)) (p : V × ℚ)
    (hlt : dp.1 current + (p.2 : WithTop ℚ) < dp.1 p.1) :
    drelaxOne current dp p =
      (fun v => if v = p.1 then dp.1 current + (p.2 : WithTop ℚ) else dp.1 v,
        fun v => if v = p.1 then some current else dp.2 v) := by
  unfold drelaxOne
  rw [if_pos hlt]

theorem drelaxOne_ge {V : Type} [DecidableEq V] (current : V)
    (dp : (V → WithTop ℚ) × (V → Option V)) (p : V × ℚ)
    (hge : ¬ dp.1 current + (p.2 : WithTop ℚ) < dp.1 p.1) :
    drelaxOne current dp p = dp := by
  unfold drelaxOne
  rw [if_neg hge]

theorem drelaxOne_core {V : Type} [DecidableEq V] (adj : V → List (V × ℚ))
    (start current : V) (dp : (V → WithTop ℚ) × (V → Option V)) (p : V × ℚ)
    (hp : p ∈ adj current) (hc : DCore adj start dp) :
    DCore adj start (drelaxOne current dp p) := by
  by_cases hlt : dp.1 current + (p.2 : WithTop ℚ) < dp.1 p.1
  · rw [drelaxOne_lt current dp p hlt]
    constructor
    · intro v q hv
      have hv2 : (if v = p.1 then dp.1 current + (p.2 : WithTop ℚ) else dp.1 v) =
          (q : WithTop ℚ) := hv
      by_cases hvp : v = p.1
      · rw [if_pos hvp] at hv2
        have hne : dp.1 current ≠ ⊤ := by
          intro htop
          rw [htop, top_add] at hv2
          exact WithTop.top_ne_coe hv2
        obtain ⟨q0, hq0⟩ := WithTop.ne_top_iff_exists.mp hne
        rw [← hq0, ← WithTop.coe_add] at hv2
        have hq : q0 + p.2 = q := WithTop.coe_injective hv2
        have hr := hc.d_reach current q0 hq0.symm
        rw [hvp, ← hq]
        exact Reach.tail hr hp
      · rw [if_neg hvp] at hv2
        exact hc.d_reach v q hv2
    · intro v hv
      have hv2 : (if v = p.1 then some current else dp.2 v) ≠ none := hv
      show (if v = p.1 then dp.1 current + (p.2 : WithTop ℚ) else dp.1 v) ≠ ⊤
      by_cases hvp : v = p.1
      · rw [if_pos hvp]
        exact ne_top_of_lt hlt
      · rw [if_neg hvp]
        rw [if_neg hvp] at hv2
        exact hc.d_prev v hv2
  · rw [drelaxOne_ge current dp p hlt]
    exact hc

theorem drelaxFold_core {V : Type} [DecidableEq V] (adj : V → List (V × ℚ))
    (start current : V) :
    ∀ (l : List (V × ℚ)), (∀ p ∈ l, p ∈ adj current) →
      ∀ dp : (V → WithTop ℚ) × (V → Option V), DCore adj start dp →
        DCore adj start (l.foldl (drelaxOne current) dp) := by
  intro l
  induction l with
  | nil => intro _ dp hc; exact hc
  | cons p l ih =>
    intro hsub dp hc
    simp only [List.foldl_cons]
    exact ih (fun q hq => hsub q (List.mem_cons_of_mem p hq)) _
      (drelaxOne_core adj start current dp p (hsub p (List.mem_cons_self p l)) hc)

theorem drelaxAll_core {V : Type} [DecidableEq V] (adj : V → List (V × ℚ))
    (start current : V) (dp : (V → WithTop ℚ) × (V → Option V))
    (hc : DCore adj start dp) : DCore adj start (drelaxAll adj current dp) :=
  drelaxFold_core adj start current (adj current) (fun _ hp => hp) dp hc

theorem dijkstraLoop_core {V : Type} [DecidableEq V] (adj : V → List (V × ℚ))
    (start goal : V) :
    ∀ (fuel : ℕ) (U : List V) (dp : (V → WithTop ℚ) × (V → Option V)),
      DCore adj start dp → DCore adj start (dijkstraLoop adj goal fuel U dp) := by
  intro fuel
  induction fuel with
  | zero => intro U dp hc; exact hc
  | succ fuel ih =>
    intro U dp hc
    rcases hmin : dijkstraMinNode dp.1 U with _ | cur
    · rw [dijkstraLoop_empty adj goal fuel U dp hmin]
      exact hc
    · by_cases hg : cur = goal
      · rw [hg] at hmin
        rw [dijkstraLoop_goal adj goal fuel U dp hmin]
        exact hc
      · by_cases hinf : dp.1 cur = ⊤
        · rw [dijkstraLoop_inf adj goal fuel U dp cur hmin hg hinf]
          exact hc
        · rw [dijkstraLoop_cont adj goal fuel U dp cur hmin hg hinf]
          exact ih _ _ (drelaxAll_core adj start cur dp hc)

theorem dijkstraInit_core {V : Type} [DecidableEq V] (adj : V → List (V × ℚ))
    (start : V) : DCore adj start (dijkstraInit start) := by
  constructor
  · intro v q hv
    have hv2 : (if v = start then ((0 : ℚ) : WithTop ℚ) else ⊤) = (q : WithTop ℚ) := hv
    by_cases hvs : v = start
    · rw [if_pos hvs] at hv2
      have hq : (0 : ℚ) = q := WithTop.coe_injective hv2
      rw [hvs, ← hq]
      exact Reach.refl start
    · rw [if_neg hvs] at hv2
      exact absurd hv2.symm WithTop.coe_ne_top
  · intro v hv
    exact absurd rfl hv

theorem dijkstraFindPath_unreachable {V : Type} [DecidableEq V]
    (adj : V → List (V × ℚ)) (nodes : List V) (start goal : V)
    (hunreach : ∀ c : ℚ, ¬ Reach adj start goal c) :
    dijkstraFindPath adj nodes start goal = ([goal], (⊤ : WithTop ℚ)) := by
  unfold dijkstraFindPath
  generalize hdp : dijkstraLoop adj goal nodes.dedup.length nodes.dedup
      (dijkstraInit start) = dp
  have hcore : DCore adj start dp := by
    rw [← hdp]
    exact dijkstraLoop_core adj start goal nodes.dedup.length nodes.dedup
      (dijkstraInit start) (dijkstraInit_core adj start)
  have hgtop : dp.1 goal = ⊤ := by
    by_contra hne
    obtain ⟨q, hq⟩ := WithTop.ne_top_iff_exists.mp hne
    exact hunreach q (hcore.d_reach goal q hq.symm)
  have hgprev : dp.2 goal = none := by
    by_cases hg2 : dp.2 goal = none
    · exact hg2
    · exact absurd hgtop (hcore.d_prev goal hg2)
  rw [dijkstraReconstruct_root dp.2 goal hgprev nodes.length, hgtop]

/-- **C2.** Unreachable goal, corrected.  Neither search raises here: the
model is total on every graph.  The A* half of the claim holds — whenever
the bounded loop returns on a goal unreachable from `start`, the result is
exactly `([], +∞)` — but the Dijkstra half is false: `_reconstruct_path`
starts from the goal with `previous[goal]` still `None`, so
`Dijkstra.find_path` returns `([goal], +∞)`, a one-node path, not the
claimed empty path. -/
theorem find_path_unreachable {V : Type} [LinearOrder V] (adj : V → List (V × ℚ))
    (h : V → ℚ) (nodes : List V) (start goal : V)
    (hunreach : ∀ c : ℚ, ¬ Reach adj start goal c) :
    (∀ (fuel : ℕ) (p : List V) (c : WithTop ℚ),
        astarFindPath fuel adj h start goal = some (p, c) → p = [] ∧ c = ⊤) ∧
      dijkstraFindPath adj nodes start goal = ([goal], (⊤ : WithTop ℚ)) := by
  constructor
  · intro fuel p c hrun
    have hun0 : AUn adj start (astarInit start) := by
      constructor
      · intro v c0 hv
        have hv2 : (if v = start then some (0 : ℚ) else none) = some c0 := hv
        by_cases hvs : v = start
        · rw [if_pos hvs] at hv2
          have hc0 := Option.some_injective ℚ hv2
          rw [hvs, ← hc0]
          exact Reach.refl start
        · rw [if_neg hvs] at hv2
          exact Option.noConfusion hv2
      · intro e he
        have he2 : e ∈ [((0 : ℚ), start)] := he
        have he3 := List.mem_singleton.mp he2
        subst he3
        refine ⟨0, ?_⟩
        show (if start = start then some (0 : ℚ) else none) = some 0
        rw [if_pos rfl]
    exact astarLoop_unreachable adj h start goal hunreach fuel (astarInit start) hun0 p c hrun
  · exact dijkstraFindPath_unreachable adj nodes start goal hunreach

/-- **C2** counterexample: on the spec's own scenario — the disconnected
two-node graph `{0, 1}` with no edges — `Dijkstra.find_path(0, 1)` returns
`([1], +∞)`, not the claimed `([], +∞)`. -/
theorem dijkstra_unreachable_cex :
    dijkstraFindPath emptyAdj [0, 1] 0 1 = ([1], (⊤ : WithTop ℚ)) ∧
      ([1], (⊤ : WithTop ℚ)) ≠ (([] : List ℕ), (⊤ : WithTop ℚ)) := by
  constructor
  · rfl
  · decide

/-- Witness for `find_path_unreachable` on the disconnected two-node graph,
zero heuristic, A* fuel 5: the A* run concretely returns `some ([], ⊤)` and
the theorem's two halves apply to it. -/
theorem find_path_unreachable_witness :
    ([] : List ℕ) = [] ∧ (⊤ : WithTop ℚ) = ⊤ ∧
      dijkstraFindPath emptyAdj [0, 1] 0 1 = ([1], (⊤ : WithTop ℚ)) := by
  have hunreach : ∀ c : ℚ, ¬ Reach emptyAdj 0 1 c := by
    intro c hr
    have hsame : ∀ (u v : ℕ) (c0 : ℚ), Reach emptyAdj u v c0 → u = v := by
      intro u v c0 h0
      induction h0 with
      | refl => rfl
      | tail h0 hmem ih => exact absurd hmem (List.not_mem_nil _)
    exact absurd (hsame 0 1 c hr) (by decide)
  have hall := find_path_unreachable emptyAdj (fun _ => (0 : ℚ)) [0, 1] 0 1 hunreach
  have hrun : astarFindPath 5 emptyAdj (fun _ => (0 : ℚ)) 0 1 = some ([], ⊤) := rfl
  obtain ⟨hp, hc⟩ := hall.1 5 [] ⊤ hrun
  exact ⟨hp, hc, hall.2⟩

end AstarMap

namespace AstarMap

/-! ## A* optimality: invariant preservation -/

theorem relaxOne_AMid {V : Type} [DecidableEq V] {adj : V → List (V × ℚ)} {h : V → ℚ}
    {start goal current : V} {gcur0 : ℚ} {done : List (V × ℚ)} {s : AStarState V}
    (hh : ∀ v : V, 0 ≤ h v) (p : V × ℚ) (hp : p ∈ adj current)
    (hm : AMid adj h start goal current gcur0 done s) :
    AMid adj h start goal current gcur0 (done ++ [p]) (relaxOne h current s p) := by
  have hsome : ∃ gc, s.gScore current = some gc := by
    rcases hm.cur_tr with ⟨h1, _⟩ | ⟨f, gc, _, h2, _⟩
    · exact ⟨gcur0, h1⟩
    · exact ⟨gc, h2⟩
  have hupd : (s.gScore p.1 = none ∨
      (∃ g, s.gScore p.1 = some g ∧ gget s current + p.2 < g)) →
      AMid adj h start goal current gcur0 (done ++ [p])
        (relaxUpd h current s p (gget s current + p.2)) := by
    intro hold
    refine ⟨?_, ?_, ?_, ?_, ?_, ?_⟩
    · intro v c hv
      rw [relaxUpd_gScore] at hv
      by_cases hvp : v = p.1
      · rw [if_pos hvp] at hv
        obtain ⟨gc, hgc⟩ := hsome
        have hcv := Option.some_injective ℚ hv
        rw [← hcv, gget_of_some s current gc hgc]
        subst hvp
        exact Reach.tail (hm.g_reach current gc hgc) hp
      · rw [if_neg hvp] at hv
        exact hm.g_reach v c hv
    · obtain ⟨c0, hc0, hc0le⟩ := hm.g_start
      by_cases hsp : start = p.1
      · rcases hold with hnone | ⟨g, hgsome, hlt⟩
        · rw [hsp, hnone] at hc0
          exact Option.noConfusion hc0
        · refine ⟨gget s current + p.2, ?_, ?_⟩
          · rw [relaxUpd_gScore, if_pos hsp]
          · rw [hsp, hgsome] at hc0
            have hgc0 := Option.some_injective ℚ hc0
            have hgle : g ≤ 0 := by rw [hgc0]; exact hc0le
            exact le_of_lt (lt_of_lt_of_le hlt hgle)
      · exact ⟨c0, by rw [relaxUpd_gScore, if_neg hsp]; exact hc0, hc0le⟩
    · intro e he
      rw [relaxUpd_openl] at he
      rcases List.mem_cons.mp he with rfl | he2
      · refine ⟨gget s current + p.2, by rw [relaxUpd_gScore, if_pos rfl], ?_⟩
        exact le_add_of_nonneg_right (hh p.1)
      · obtain ⟨c, hc1, hc2⟩ := hm.open_g e he2
        by_cases hvp : e.2 = p.1
        · refine ⟨gget s current + p.2, by rw [relaxUpd_gScore, if_pos hvp], ?_⟩
          rcases hold with hnone | ⟨g, hgsome, hlt⟩
          · rw [hvp, hnone] at hc1
            exact Option.noConfusion hc1
          · rw [hvp, hgsome] at hc1
            have hgc := Option.some_injective ℚ hc1
            have hgle : g ≤ e.1 := by rw [hgc]; exact hc2
            exact le_trans (le_of_lt hlt) hgle
        · exact ⟨c, by rw [relaxUpd_gScore, if_neg hvp]; exact hc1, hc2⟩
    · intro c hv
      rw [relaxUpd_gScore] at hv
      by_cases hgp : goal = p.1
      · refine ⟨gget s current + p.2 + h p.1, ?_⟩
        rw [relaxUpd_openl, hgp]
        exact List.mem_cons_self _ _
      · rw [if_neg hgp] at hv
        obtain ⟨f, hf⟩ := hm.goal_open c hv
        exact ⟨f, by rw [relaxUpd_openl]; exact List.mem_cons_of_mem _ hf⟩
    · intro v gv hvne hv
      rw [relaxUpd_gScore] at hv
      by_cases hvp : v = p.1
      · rw [if_pos hvp] at hv
        have htg := Option.some_injective ℚ hv
        left
        refine ⟨gget s current + p.2 + h p.1, ?_, ?_⟩
        · rw [relaxUpd_openl, hvp]
          exact List.mem_cons_self _ _
        · rw [← htg, hvp]
      · rw [if_neg hvp] at hv
        rcases hm.relax_ex v gv hvne hv with ⟨f, hfmem, hfle⟩ | hrel
        · exact Or.inl ⟨f, by rw [relaxUpd_openl]; exact List.mem_cons_of_mem _ hfmem, hfle⟩
        · right
          intro q hq
          obtain ⟨gx, hgx1, hgx2⟩ := hrel q hq
          by_cases hpp : q.1 = p.1
          · refine ⟨gget s current + p.2, by rw [relaxUpd_gScore, if_pos hpp], ?_⟩
            rcases hold with hnone | ⟨g, hgsome, hlt⟩
            · rw [hpp, hnone] at hgx1
              exact Option.noConfusion hgx1
            · rw [hpp, hgsome] at hgx1
              have hggx := Option.some_injective ℚ hgx1
              have hgle : g ≤ gv + q.2 := by rw [hggx]; exact hgx2
              exact le_trans (le_of_lt hlt) hgle
          · exact ⟨gx, by rw [relaxUpd_gScore, if_neg hpp]; exact hgx1, hgx2⟩
    · by_cases hcp : current = p.1
      · right
        refine ⟨gget s current + p.2 + h p.1, gget s current + p.2, ?_, ?_, ?_⟩
        · rw [relaxUpd_openl, hcp]
          exact List.mem_cons_self _ _
        · rw [relaxUpd_gScore, if_pos hcp]
        · rw [hcp]
      · rcases hm.cur_tr with ⟨hrec, hdone⟩ | ⟨f, gc2, hfmem, hgc2, hfle⟩
        · left
          refine ⟨by rw [relaxUpd_gScore, if_neg hcp]; exact hrec, ?_⟩
          intro q hq
          rcases List.mem_append.mp hq with hqd | hqnew
          · obtain ⟨gx, hgx1, hgx2⟩ := hdone q hqd
            by_cases hpp : q.1 = p.1
            · refine ⟨gget s current + p.2, by rw [relaxUpd_gScore, if_pos hpp], ?_⟩
              rcases hold with hnone | ⟨g, hgsome, hlt⟩
              · rw [hpp, hnone] at hgx1
                exact Option.noConfusion hgx1
              · rw [hpp, hgsome] at hgx1
                have hggx := Option.some_injective ℚ hgx1
                have hgle : g ≤ gcur0 + q.2 := by rw [hggx]; exact hgx2
                exact le_trans (le_of_lt hlt) hgle
            · exact ⟨gx, by rw [relaxUpd_gScore, if_neg hpp]; exact hgx1, hgx2⟩
          · have hqp : q = p := List.mem_singleton.mp hqnew
            rw [hqp]
            refine ⟨gget s current + p.2, by rw [relaxUpd_gScore, if_pos rfl], ?_⟩
            rw [gget_of_some s current gcur0 hrec]
        · right
          refine ⟨f, gc2, ?_, ?_, hfle⟩
          · rw [relaxUpd_openl]
            exact List.mem_cons_of_mem _ hfmem
          · rw [relaxUpd_gScore, if_neg hcp]
            exact hgc2
  rcases hg : s.gScore p.1 with _ | g
  · rw [relaxOne_new h current s p hg]
    exact hupd (Or.inl hg)
  · by_cases hlt : gget s current + p.2 < g
    · rw [relaxOne_improve h current s p g hg hlt]
      exact hupd (Or.inr ⟨g, hg, hlt⟩)
    · rw [relaxOne_keep h current s p g hg hlt]
      refine ⟨hm.g_reach, hm.g_start, hm.open_g, hm.goal_open, hm.relax_ex, ?_⟩
      rcases hm.cur_tr with ⟨hrec, hdone⟩ | hright
      · left
        refine ⟨hrec, ?_⟩
        intro q hq
        rcases List.mem_append.mp hq with hqd | hqnew
        · exact hdone q hqd
        · have hqp : q = p := List.mem_singleton.mp hqnew
          subst hqp
          refine ⟨g, hg, ?_⟩
          have hgle := le_of_not_lt hlt
          rw [gget_of_some s current gcur0 hrec] at hgle
          exact hgle
      · exact Or.inr hright

end AstarMap

namespace AstarMap

theorem relaxFold_AMid {V : Type} [DecidableEq V] {adj : V → List (V × ℚ)} {h : V → ℚ}
    {start goal current : V} {gcur0 : ℚ} (hh : ∀ v : V, 0 ≤ h v) :
    ∀ (rem done : List (V × ℚ)), (∀ p ∈ rem, p ∈ adj current) →
      ∀ s : AStarState V, AMid adj h start goal current gcur0 done s →
        AMid adj h start goal current gcur0 (done ++ rem)
          (rem.foldl (relaxOne h current) s) := by
  intro rem
  induction rem with
  | nil =>
    intro done _ s hm
    rw [List.append_nil]
    exact hm
  | cons p rem ih =>
    intro done hsub s hm
    simp only [List.foldl_cons]
    have hstep := relaxOne_AMid hh p (hsub p (List.mem_cons_self p rem)) hm
    have hrest := ih (done ++ [p]) (fun q hq => hsub q (List.mem_cons_of_mem p hq)) _ hstep
    rw [List.append_assoc] at hrest
    exact hrest

theorem AInv_pop_AMid {V : Type} [LinearOrder V] {adj : V → List (V × ℚ)} {h : V → ℚ}
    {start goal : V} {s : AStarState V} {e : ℚ × V} {rest : List (ℚ × V)}
    (hinv : AInv adj h start goal s) (hpop : popMin s.openl = some (e, rest))
    (hne : e.2 ≠ goal) (gcur0 : ℚ) (hrec : s.gScore e.2 = some gcur0) :
    AMid adj h start goal e.2 gcur0 [] ({ s with openl := rest } : AStarState V) := by
  obtain ⟨hmem, hrest, hmin⟩ := popMin_spec hpop
  refine ⟨hinv.g_reach, hinv.g_start, ?_, ?_, ?_, ?_⟩
  · intro e2 he2
    apply hinv.open_g e2
    have he3 : e2 ∈ rest := he2
    rw [hrest] at he3
    exact List.erase_subset _ _ he3
  · intro c hv
    obtain ⟨f, hf⟩ := hinv.goal_open c hv
    refine ⟨f, ?_⟩
    show (f, goal) ∈ rest
    rw [hrest]
    have hne2 : (f, goal) ≠ e := by
      intro hfe
      apply hne
      rw [← hfe]
    exact (List.mem_erase_of_ne hne2).mpr hf
  · intro v gv hvne hv
    rcases hinv.relax_inv v gv hv with ⟨f, hfmem, hfle⟩ | hrel
    · left
      refine ⟨f, ?_, hfle⟩
      show (f, v) ∈ rest
      rw [hrest]
      have hne2 : (f, v) ≠ e := by
        intro hfe
        apply hvne
        rw [← hfe]
      exact (List.mem_erase_of_ne hne2).mpr hfmem
    · exact Or.inr hrel
  · exact Or.inl ⟨hrec, fun p hp => absurd hp (List.not_mem_nil p)⟩

theorem AMid_AInv {V : Type} [DecidableEq V] {adj : V → List (V × ℚ)} {h : V → ℚ}
    {start goal current : V} {gcur0 : ℚ} {s : AStarState V}
    (hm : AMid adj h start goal current gcur0 (adj current) s) :
    AInv adj h start goal s := by
  refine ⟨hm.g_reach, hm.g_start, hm.open_g, hm.goal_open, ?_⟩
  intro v gv hv
  by_cases hvc : v = current
  · subst hvc
    rcases hm.cur_tr with ⟨hrec, hdone⟩ | ⟨f, gc, hfmem, hgc, hfle⟩
    · right
      intro p hp
      obtain ⟨gx, hgx1, hgx2⟩ := hdone p hp
      refine ⟨gx, hgx1, ?_⟩
      rw [hv] at hrec
      have hveq := Option.some_injective ℚ hrec
      rw [hveq]
      exact hgx2
    · left
      rw [hv] at hgc
      have hveq := Option.some_injective ℚ hgc
      refine ⟨f, hfmem, ?_⟩
      rw [hveq]
      exact hfle
  · exact hm.relax_ex v gv hvc hv

theorem AInv_step {V : Type} [LinearOrder V] {adj : V → List (V × ℚ)} {h : V → ℚ}
    {start goal : V} {s : AStarState V} {e : ℚ × V} {rest : List (ℚ × V)}
    (hh : ∀ v : V, 0 ≤ h v) (hinv : AInv adj h start goal s)
    (hpop : popMin s.openl = some (e, rest)) (hne : e.2 ≠ goal) :
    AInv adj h start goal (relaxAll adj h e.2 ({ s with openl := rest } : AStarState V)) := by
  obtain ⟨gcur0, hrec, _⟩ := hinv.open_g e (popMin_spec hpop).1
  have h0 := AInv_pop_AMid hinv hpop hne gcur0 hrec
  have h1 := relaxFold_AMid hh (adj e.2) [] (fun _ hp => hp) _ h0
  rw [List.nil_append] at h1
  exact AMid_AInv h1

end AstarMap

namespace AstarMap

/-! ## A* optimality: coverage and the main loop theorem -/

theorem astar_cover {V : Type} {adj : V → List (V × ℚ)} {h : V → ℚ}
    {start goal : V} {s : AStarState V}
    (hinv : AInv adj h start goal s) :
    ∀ (u v : V) (c : ℚ), Reach adj u v c → u = start →
      (∃ gv, s.gScore v = some gv ∧ gv ≤ c) ∨
        (∃ f n gn, (f, n) ∈ s.openl ∧ s.gScore n = some gn ∧ f ≤ gn + h n ∧
          ∃ c1 c2 : ℚ, gn ≤ c1 ∧ Reach adj n v c2 ∧ c = c1 + c2) := by
  intro u v c hr
  induction hr with
  | refl =>
    intro hstart
    subst hstart
    obtain ⟨c0, hc0, hc0le⟩ := hinv.g_start
    exact Or.inl ⟨c0, hc0, hc0le⟩
  | tail hd hmem ih =>
    intro hstart
    rcases ih hstart with ⟨gw, hgw, hgwle⟩ | ⟨f, n, gn, hfmem, hgn, hfle, c1, c2, hc1, hr2, hsum⟩
    · rcases hinv.relax_inv _ gw hgw with ⟨f, hfmem, hfle⟩ | hrel
      · exact Or.inr ⟨f, _, gw, hfmem, hgw, hfle, _, _, hgwle, Reach.single hmem, rfl⟩
      · obtain ⟨gx, hgx1, hgx2⟩ := hrel _ hmem
        exact Or.inl ⟨gx, hgx1, le_trans hgx2 (add_le_add_right hgwle _)⟩
    · refine Or.inr ⟨f, n, gn, hfmem, hgn, hfle, c1, c2 + _, hc1, Reach.tail hr2 hmem, ?_⟩
      rw [hsum, add_assoc]

theorem astarInit_AInv {V : Type} [DecidableEq V] (adj : V → List (V × ℚ)) (h : V → ℚ)
    (start goal : V) (hh : ∀ v : V, 0 ≤ h v) :
    AInv adj h start goal (astarInit start) := by
  refine ⟨?_, ?_, ?_, ?_, ?_⟩
  · intro v c hv
    have hv2 : (if v = start then some (0 : ℚ) else none) = some c := hv
    by_cases hvs : v = start
    · rw [if_pos hvs] at hv2
      have hc := Option.some_injective ℚ hv2
      rw [hvs, ← hc]
      exact Reach.refl start
    · rw [if_neg hvs] at hv2
      exact Option.noConfusion hv2
  · refine ⟨0, ?_, le_refl 0⟩
    show (if start = start then some (0 : ℚ) else none) = some 0
    rw [if_pos rfl]
  · intro e he
    have he2 : e ∈ [((0 : ℚ), start)] := he
    have he3 := List.mem_singleton.mp he2
    subst he3
    refine ⟨0, ?_, le_refl 0⟩
    show (if start = start then some (0 : ℚ) else none) = some 0
    rw [if_pos rfl]
  · intro c hv
    have hv2 : (if goal = start then some (0 : ℚ) else none) = some c := hv
    by_cases hgs : goal = start
    · refine ⟨0, ?_⟩
      show ((0 : ℚ), goal) ∈ [((0 : ℚ), start)]
      rw [hgs]
      exact List.mem_singleton.mpr rfl
    · rw [if_neg hgs] at hv2
      exact Option.noConfusion hv2
  · intro v gv hv
    have hv2 : (if v = start then some (0 : ℚ) else none) = some gv := hv
    by_cases hvs : v = start
    · left
      refine ⟨0, ?_, ?_⟩
      · show ((0 : ℚ), v) ∈ [((0 : ℚ), start)]
        rw [hvs]
        exact List.mem_singleton.mpr rfl
      · rw [if_pos hvs] at hv2
        have hc := Option.some_injective ℚ hv2
        rw [← hc]
        exact le_add_of_nonneg_right (hh v)
    · rw [if_neg hvs] at hv2
      exact Option.noConfusion hv2

theorem astarLoop_opt {V : Type} [LinearOrder V] {adj : V → List (V × ℚ)} {h : V → ℚ}
    {start goal : V} (hh : ∀ v : V, 0 ≤ h v)
    (hadm : ∀ (v : V) (c : ℚ), Reach adj v goal c → h v ≤ c) :
    ∀ (fuel : ℕ) (s : AStarState V), AInv adj h start goal s →
      ∀ (p : List V) (c : WithTop ℚ), astarLoop adj h goal fuel s = some (p, c) →
        ∀ c0 : ℚ, Reach adj start goal c0 →
          ∃ q : ℚ, c = (q : WithTop ℚ) ∧ Reach adj start goal q ∧
            ∀ q2 : ℚ, Reach adj start goal q2 → q ≤ q2 := by
  intro fuel
  induction fuel with
  | zero =>
    intro s _ p c hrun
    cases hrun
  | succ fuel ih =>
    intro s hinv p c hrun c0 hreach
    rcases hpop : popMin s.openl with _ | ⟨e, rest⟩
    · exfalso
      have hempty : s.openl = [] := popMin_none hpop
      rcases astar_cover hinv start goal c0 hreach rfl with
        ⟨gv, hgv, _⟩ | ⟨f, n, gn, hfmem, _⟩
      · obtain ⟨f, hf⟩ := hinv.goal_open gv hgv
        rw [hempty] at hf
        exact absurd hf (List.not_mem_nil _)
      · rw [hempty] at hfmem
        exact absurd hfmem (List.not_mem_nil _)
    · by_cases hgoal : e.2 = goal
      · rw [astarLoop_found adj h goal fuel s e rest hpop hgoal] at hrun
        simp only [Option.some.injEq, Prod.mk.injEq] at hrun
        obtain ⟨hmem, _, hminle⟩ := popMin_spec hpop
        obtain ⟨ggoal, hggoal, hgle⟩ := hinv.open_g e hmem
        have hgg : gget s e.2 = ggoal := gget_of_some s e.2 ggoal hggoal
        refine ⟨ggoal, ?_, ?_, ?_⟩
        · rw [← hrun.2, hgg]
        · have hra := hinv.g_reach e.2 ggoal hggoal
          rw [hgoal] at hra
          exact hra
        · intro q2 hq2
          rcases astar_cover hinv start goal q2 hq2 rfl with
            ⟨gv, hgv, hgvle⟩ | ⟨f, n, gn, hfmem, hgn, hfle, c1, c2, hc1, hr2, hsum⟩
          · rw [hgoal] at hggoal
            rw [hgv] at hggoal
            have hveq := Option.some_injective ℚ hggoal
            rw [← hveq]
            exact hgvle
          · have h5 : h n ≤ c2 := hadm n c2 hr2
            have h6 : e.1 ≤ f := hminle (f, n) hfmem
            have h7 : gn + h n ≤ c1 + c2 := add_le_add hc1 h5
            rw [hsum]
            exact le_trans hgle (le_trans h6 (le_trans hfle h7))
      · rw [astarLoop_cont adj h goal fuel s e rest hpop hgoal] at hrun
        exact ih _ (AInv_step hh hinv hpop hgoal) p c hrun c0 hreach

end AstarMap

namespace AstarMap

/-! ## Dijkstra optimality: selection, coverage -/

theorem dijkstraMinNode_fold_min {V : Type} (dist : V → WithTop ℚ) :
    ∀ (l : List V) (b : V),
      (l.foldl (fun b u => if dist u < dist b then u else b) b = b ∨
        l.foldl (fun b u => if dist u < dist b then u else b) b ∈ l) ∧
      dist (l.foldl (fun b u => if dist u < dist b then u else b) b) ≤ dist b ∧
      ∀ u ∈ l, dist (l.foldl (fun b u => if dist u < dist b then u else b) b) ≤ dist u := by
  intro l
  induction l with
  | nil =>
    intro b
    exact ⟨Or.inl rfl, le_refl _, fun u hu => absurd hu (List.not_mem_nil u)⟩
  | cons x l ih =>
    intro b
    simp only [List.foldl_cons]
    by_cases hlt : dist x < dist b
    · rw [if_pos hlt]
      obtain ⟨hmem, hle, hall⟩ := ih x
      refine ⟨?_, le_trans hle (le_of_lt hlt), ?_⟩
      · rcases hmem with hmem | hmem
        · refine Or.inr ?_
          rw [hmem]
          exact List.mem_cons_self x l
        · exact Or.inr (List.mem_cons_of_mem x hmem)
      · intro u hu
        rcases List.mem_cons.mp hu with rfl | hu2
        · exact hle
        · exact hall u hu2
    · rw [if_neg hlt]
      obtain ⟨hmem, hle, hall⟩ := ih b
      refine ⟨?_, hle, ?_⟩
      · rcases hmem with hmem | hmem
        · exact Or.inl hmem
        · exact Or.inr (List.mem_cons_of_mem x hmem)
      · intro u hu
        rcases List.mem_cons.mp hu with rfl | hu2
        · exact le_trans hle (le_of_not_lt hlt)
        · exact hall u hu2

theorem dijkstraMinNode_spec {V : Type} {dist : V → WithTop ℚ} {l : List V} {m : V}
    (h : dijkstraMinNode dist l = some m) : m ∈ l ∧ ∀ u ∈ l, dist m ≤ dist u := by
  rcases l with _ | ⟨v, rest⟩
  · cases h
  · unfold dijkstraMinNode at h
    have h2 := Option.some_injective _ h
    obtain ⟨hmem, hle, hall⟩ := dijkstraMinNode_fold_min dist rest v
    rw [h2] at hmem hle hall
    refine ⟨?_, ?_⟩
    · rcases hmem with hmem | hmem
      · rw [hmem]
        exact List.mem_cons_self v rest
      · exact List.mem_cons_of_mem v hmem
    · intro u hu
      rcases List.mem_cons.mp hu with rfl | hu2
      · exact hle
      · exact hall u hu2

theorem dijkstra_cover {V : Type} {adj : V → List (V × ℚ)} {nodes : List V}
    {start : V} {U : List V} {dp : (V → WithTop ℚ) × (V → Option V)}
    (hclosed : ∀ v ∈ nodes, ∀ p ∈ adj v, p.1 ∈ nodes) (hstart : start ∈ nodes)
    (hinv : DInv adj nodes start U dp) :
    ∀ (u v : V) (c : ℚ), Reach adj u v c → u = start →
      dp.1 v ≤ ((c : ℚ) : WithTop ℚ) ∨
        ∃ n ∈ U, ∃ c1 c2 : ℚ, dp.1 n ≤ (c1 : WithTop ℚ) ∧ Reach adj n v c2 ∧
          c = c1 + c2 := by
  intro u v c hr
  induction hr with
  | refl =>
    intro hu
    subst hu
    exact Or.inl (le_of_eq hinv.d_start)
  | @tail w v2 d cw hd hmem ih =>
    intro hu
    rcases ih hu with hle | ⟨n, hnU, c1, c2, hc1, hr2, hsum⟩
    · by_cases hwU : w ∈ U
      · exact Or.inr ⟨w, hwU, d, cw, hle, Reach.single hmem, rfl⟩
      · left
        subst hu
        have hwn : w ∈ nodes := Reach.mem_nodes hclosed hstart hd
        have hne : dp.1 w ≠ ⊤ := ne_top_of_le_ne_top WithTop.coe_ne_top hle
        obtain ⟨q, hq⟩ := WithTop.ne_top_iff_exists.mp hne
        have hfr := hinv.d_frontier w hwn hwU q hq.symm (v2, cw) hmem
        have hqd : q ≤ d := by
          rw [← hq] at hle
          exact_mod_cast hle
        refine le_trans hfr ?_
        exact_mod_cast add_le_add_right hqd cw
    · refine Or.inr ⟨n, hnU, c1, c2 + cw, hc1, Reach.tail hr2 hmem, ?_⟩
      rw [hsum, add_assoc]

theorem dijkstra_select_opt {V : Type} {adj : V → List (V × ℚ)} {nodes : List V}
    {start : V} {U : List V} {dp : (V → WithTop ℚ) × (V → Option V)}
    (hnn : ∀ v : V, ∀ p ∈ adj v, 0 ≤ p.2)
    (hclosed : ∀ v ∈ nodes, ∀ p ∈ adj v, p.1 ∈ nodes) (hstart : start ∈ nodes)
    (hinv : DInv adj nodes start U dp) {cur : V}
    (hmin : dijkstraMinNode dp.1 U = some cur) :
    ∀ c : ℚ, Reach adj start cur c → dp.1 cur ≤ ((c : ℚ) : WithTop ℚ) := by
  intro c hr
  obtain ⟨hcmem, hcle⟩ := dijkstraMinNode_spec hmin
  rcases dijkstra_cover hclosed hstart hinv start cur c hr rfl with
    hle | ⟨n, hnU, c1, c2, hc1, hr2, hsum⟩
  · exact hle
  · have h1 : dp.1 cur ≤ dp.1 n := hcle n hnU
    have h2 : dp.1 cur ≤ (c1 : WithTop ℚ) := le_trans h1 hc1
    have h3 : (0 : ℚ) ≤ c2 := Reach.nonneg hnn hr2
    refine le_trans h2 ?_
    rw [hsum]
    exact_mod_cast le_add_of_nonneg_right h3

end AstarMap

namespace AstarMap

/-! ## Dijkstra optimality: invariant preservation -/

theorem drelaxOne_DMid {V : Type} [DecidableEq V] {adj : V → List (V × ℚ)}
    {nodes : List V} {start : V} {U : List V} {cur : V} {qc : ℚ}
    {dp0 : (V → WithTop ℚ) × (V → Option V)}
    (hnn : ∀ v : V, ∀ p ∈ adj v, 0 ≤ p.2)
    (hinv0 : DInv adj nodes start U dp0)
    {dp : (V → WithTop ℚ) × (V → Option V)} {done : List (V × ℚ)}
    (hm : DMid adj nodes start U cur qc dp0 dp done)
    (p : V × ℚ) (hp : p ∈ adj cur) :
    DMid adj nodes start U cur qc dp0 (drelaxOne cur dp p) (done ++ [p]) := by
  have hqnn : (0 : ℚ) ≤ qc := Reach.nonneg hnn (hm.core.d_reach cur qc hm.cur_eq)
  have hwnn : (0 : ℚ) ≤ p.2 := hnn cur p hp
  by_cases hlt : dp.1 cur + (p.2 : WithTop ℚ) < dp.1 p.1
  · have hval : dp.1 cur + (p.2 : WithTop ℚ) = ((qc + p.2 : ℚ) : WithTop ℚ) := by
      rw [hm.cur_eq, ← WithTop.coe_add]
    have hlt2 : ((qc + p.2 : ℚ) : WithTop ℚ) < dp.1 p.1 := by
      rw [← hval]
      exact hlt
    have hne_cur : p.1 ≠ cur := by
      intro hpc
      rw [hpc, hm.cur_eq] at hlt2
      have hqlt := WithTop.coe_lt_coe.mp hlt2
      linarith
    have hnotset : ¬ (p.1 ∈ nodes ∧ p.1 ∉ U) := by
      rintro ⟨hN, hU⟩
      have hre : Reach adj start p.1 (qc + p.2) :=
        Reach.tail (hm.core.d_reach cur qc hm.cur_eq) hp
      have hset := hinv0.d_settled p.1 hN hU (qc + p.2) hre
      rw [← hm.settled_eq p.1 hN hU] at hset
      exact absurd (lt_of_lt_of_le hlt2 hset) (lt_irrefl _)
    have hcore2 := drelaxOne_core adj start cur dp p hp hm.core
    rw [drelaxOne_lt cur dp p hlt] at hcore2 ⊢
    refine ⟨hcore2, ?_, ?_, ?_, ?_, ?_⟩
    · intro v
      show (if v = p.1 then dp.1 cur + (p.2 : WithTop ℚ) else dp.1 v) ≤ dp0.1 v
      by_cases hvp : v = p.1
      · rw [if_pos hvp, hvp]
        exact le_trans (le_of_lt hlt) (hm.mono p.1)
      · rw [if_neg hvp]
        exact hm.mono v
    · intro v hvN hvU
      show (if v = p.1 then dp.1 cur + (p.2 : WithTop ℚ) else dp.1 v) = dp0.1 v
      by_cases hvp : v = p.1
      · exfalso
        apply hnotset
        constructor
        · rw [← hvp]
          exact hvN
        · intro hU
          apply hvU
          rw [hvp]
          exact hU
      · rw [if_neg hvp]
        exact hm.settled_eq v hvN hvU
    · show (if cur = p.1 then dp.1 cur + (p.2 : WithTop ℚ) else dp.1 cur) = (qc : WithTop ℚ)
      rw [if_neg (fun hc => hne_cur hc.symm)]
      exact hm.cur_eq
    · intro q hq
      show (if q.1 = p.1 then dp.1 cur + (p.2 : WithTop ℚ) else dp.1 q.1) ≤
        ((qc + q.2 : ℚ) : WithTop ℚ)
      rcases List.mem_append.mp hq with hqd | hqnew
      · by_cases hpp : q.1 = p.1
        · rw [if_pos hpp]
          have hold := hm.done_rel q hqd
          rw [hpp] at hold
          exact le_trans (le_of_lt hlt) hold
        · rw [if_neg hpp]
          exact hm.done_rel q hqd
      · have hqp : q = p := List.mem_singleton.mp hqnew
        rw [hqp, if_pos rfl, hval]
    · show (if start = p.1 then dp.1 cur + (p.2 : WithTop ℚ) else dp.1 start) =
        ((0 : ℚ) : WithTop ℚ)
      by_cases hsp : start = p.1
      · exfalso
        rw [← hsp, hm.d_start] at hlt2
        have hqlt := WithTop.coe_lt_coe.mp hlt2
        linarith
      · rw [if_neg hsp]
        exact hm.d_start
  · rw [drelaxOne_ge cur dp p hlt]
    refine ⟨hm.core, hm.mono, hm.settled_eq, hm.cur_eq, ?_, hm.d_start⟩
    intro q hq
    rcases List.mem_append.mp hq with hqd | hqnew
    · exact hm.done_rel q hqd
    · have hqp : q = p := List.mem_singleton.mp hqnew
      rw [hqp]
      have hge := le_of_not_lt hlt
      rw [hm.cur_eq, ← WithTop.coe_add] at hge
      exact hge

theorem drelaxFold_DMid {V : Type} [DecidableEq V] {adj : V → List (V × ℚ)}
    {nodes : List V} {start : V} {U : List V} {cur : V} {qc : ℚ}
    {dp0 : (V → WithTop ℚ) × (V → Option V)}
    (hnn : ∀ v : V, ∀ p ∈ adj v, 0 ≤ p.2)
    (hinv0 : DInv adj nodes start U dp0) :
    ∀ (rem done : List (V × ℚ)), (∀ p ∈ rem, p ∈ adj cur) →
      ∀ dp : (V → WithTop ℚ) × (V → Option V),
        DMid adj nodes start U cur qc dp0 dp done →
        DMid adj nodes start U cur qc dp0 (rem.foldl (drelaxOne cur) dp)
          (done ++ rem) := by
  intro rem
  induction rem with
  | nil =>
    intro done _ dp hm
    rw [List.append_nil]
    exact hm
  | cons p rem ih =>
    intro done hsub dp hm
    simp only [List.foldl_cons]
    have hstep := drelaxOne_DMid hnn hinv0 hm p (hsub p (List.mem_cons_self p rem))
    have hrest := ih (done ++ [p]) (fun q hq => hsub q (List.mem_cons_of_mem p hq)) _ hstep
    rw [List.append_assoc] at hrest
    exact hrest

theorem dijkstra_iter {V : Type} [DecidableEq V] {adj : V → List (V × ℚ)}
    {nodes : List V} {start : V} {U : List V}
    {dp : (V → WithTop ℚ) × (V → Option V)}
    (hnn : ∀ v : V, ∀ p ∈ adj v, 0 ≤ p.2)
    (hclosed : ∀ v ∈ nodes, ∀ p ∈ adj v, p.1 ∈ nodes) (hstart : start ∈ nodes)
    (hinv : DInv adj nodes start U dp) {cur : V}
    (hmin : dijkstraMinNode dp.1 U = some cur) {qc : ℚ}
    (hq : dp.1 cur = (qc : WithTop ℚ)) :
    DInv adj nodes start (U.erase cur) (drelaxAll adj cur dp) := by
  have hcurU : cur ∈ U := (dijkstraMinNode_spec hmin).1
  have hm0 : DMid adj nodes start U cur qc dp dp [] :=
    ⟨hinv.core, fun v => le_refl _, fun v _ _ => rfl, hq,
      fun p hp => absurd hp (List.not_mem_nil p), hinv.d_start⟩
  have hm := drelaxFold_DMid hnn hinv (adj cur) [] (fun _ hp => hp) dp hm0
  rw [List.nil_append] at hm
  have hm2 : DMid adj nodes start U cur qc dp (drelaxAll adj cur dp) (adj cur) := hm
  have hsel := dijkstra_select_opt hnn hclosed hstart hinv hmin
  refine ⟨hm2.core, ?_, hinv.u_nodup.erase cur, hm2.d_start, ?_, ?_⟩
  · intro v hv
    exact hinv.u_sub v (List.erase_subset _ _ hv)
  · intro v hvN hvU c hre
    by_cases hvU0 : v ∈ U
    · have hveq : v = cur := by
        by_contra hne
        exact hvU ((List.mem_erase_of_ne hne).mpr hvU0)
      subst hveq
      rw [hm2.cur_eq, ← hq]
      exact hsel c hre
    · rw [hm2.settled_eq v hvN hvU0]
      exact hinv.d_settled v hvN hvU0 c hre
  · intro v hvN hvU q2 hvq pe hpe
    by_cases hvU0 : v ∈ U
    · have hveq : v = cur := by
        by_contra hne
        exact hvU ((List.mem_erase_of_ne hne).mpr hvU0)
      subst hveq
      rw [hm2.cur_eq] at hvq
      have hqq := WithTop.coe_injective hvq
      have hdr := hm2.done_rel pe hpe
      rw [← hqq]
      exact hdr
    · have hveq := hm2.settled_eq v hvN hvU0
      rw [hveq] at hvq
      have hfr := hinv.d_frontier v hvN hvU0 q2 hvq pe hpe
      exact le_trans (hm2.mono pe.1) hfr

end AstarMap

namespace AstarMap

/-! ## Dijkstra optimality: the loop and `find_path` -/

theorem dijkstraLoop_opt {V : Type} [DecidableEq V] {adj : V → List (V × ℚ)}
    {nodes : List V} {start goal : V}
    (hnn : ∀ v : V, ∀ p ∈ adj v, 0 ≤ p.2)
    (hclosed : ∀ v ∈ nodes, ∀ p ∈ adj v, p.1 ∈ nodes) (hstart : start ∈ nodes)
    (hgoalN : goal ∈ nodes) :
    ∀ (fuel : ℕ) (U : List V) (dp : (V → WithTop ℚ) × (V → Option V)),
      U.length ≤ fuel → DInv adj nodes start U dp →
      ∀ c : ℚ, Reach adj start goal c →
        (dijkstraLoop adj goal fuel U dp).1 goal ≤ ((c : ℚ) : WithTop ℚ) := by
  intro fuel
  induction fuel with
  | zero =>
    intro U dp hlen hinv c hre
    have hU : U = [] := List.length_eq_zero.mp (Nat.le_zero.mp hlen)
    rw [dijkstraLoop_zero]
    refine hinv.d_settled goal hgoalN ?_ c hre
    rw [hU]
    exact List.not_mem_nil goal
  | succ fuel ih =>
    intro U dp hlen hinv c hre
    rcases hmin : dijkstraMinNode dp.1 U with _ | cur
    · rw [dijkstraLoop_empty adj goal fuel U dp hmin]
      have hU := dijkstraMinNode_none hmin
      refine hinv.d_settled goal hgoalN ?_ c hre
      rw [hU]
      exact List.not_mem_nil goal
    · by_cases hg : cur = goal
      · rw [hg] at hmin
        rw [dijkstraLoop_goal adj goal fuel U dp hmin]
        exact dijkstra_select_opt hnn hclosed hstart hinv hmin c hre
      · by_cases hinf : dp.1 cur = ⊤
        · rw [dijkstraLoop_inf adj goal fuel U dp cur hmin hg hinf]
          rcases dijkstra_cover hclosed hstart hinv start goal c hre rfl with
            hle | ⟨n, hnU, c1, c2, hc1, hr2, hsum⟩
          · exact hle
          · exfalso
            have hminle := (dijkstraMinNode_spec hmin).2 n hnU
            rw [hinf] at hminle
            have htople : (⊤ : WithTop ℚ) ≤ ((c1 : ℚ) : WithTop ℚ) :=
              le_trans hminle hc1
            exact absurd (lt_of_lt_of_le (WithTop.coe_lt_top c1) htople) (lt_irrefl _)
        · rw [dijkstraLoop_cont adj goal fuel U dp cur hmin hg hinf]
          obtain ⟨q, hq⟩ := WithTop.ne_top_iff_exists.mp hinf
          have hinv2 := dijkstra_iter hnn hclosed hstart hinv hmin hq.symm
          have hcurU := (dijkstraMinNode_spec hmin).1
          have hlen2 : (U.erase cur).length ≤ fuel := by
            rw [List.length_erase_of_mem hcurU]
            omega
          exact ih (U.erase cur) _ hlen2 hinv2 c hre

theorem dijkstraFindPath_opt {V : Type} [DecidableEq V] {adj : V → List (V × ℚ)}
    {nodes : List V} {start goal : V}
    (hnn : ∀ v : V, ∀ p ∈ adj v, 0 ≤ p.2)
    (hclosed : ∀ v ∈ nodes, ∀ p ∈ adj v, p.1 ∈ nodes) (hstart : start ∈ nodes)
    {c0 : ℚ} (hreach : Reach adj start goal c0) :
    ∃ q : ℚ, (dijkstraFindPath adj nodes start goal).2 = ((q : ℚ) : WithTop ℚ) ∧
      Reach adj start goal q ∧ ∀ q2 : ℚ, Reach adj start goal q2 → q ≤ q2 := by
  have hgoalN : goal ∈ nodes := Reach.mem_nodes hclosed hstart hreach
  have hinv0 : DInv adj nodes start nodes.dedup (dijkstraInit start) := by
    refine ⟨dijkstraInit_core adj start, ?_, List.nodup_dedup nodes, ?_, ?_, ?_⟩
    · intro v hv
      exact List.mem_dedup.mp hv
    · show (if start = start then ((0 : ℚ) : WithTop ℚ) else ⊤) = ((0 : ℚ) : WithTop ℚ)
      rw [if_pos rfl]
    · intro v hvN hvU
      exact absurd (List.mem_dedup.mpr hvN) hvU
    · intro v hvN hvU
      exact absurd (List.mem_dedup.mpr hvN) hvU
  have hopt := dijkstraLoop_opt hnn hclosed hstart hgoalN nodes.dedup.length
    nodes.dedup (dijkstraInit start) (le_refl _) hinv0
  have hcore := dijkstraLoop_core adj start goal nodes.dedup.length nodes.dedup
    (dijkstraInit start) (dijkstraInit_core adj start)
  have hle := hopt c0 hreach
  have hne : (dijkstraLoop adj goal nodes.dedup.length nodes.dedup
      (dijkstraInit start)).1 goal ≠ ⊤ :=
    ne_top_of_le_ne_top WithTop.coe_ne_top hle
  obtain ⟨q, hq⟩ := WithTop.ne_top_iff_exists.mp hne
  refine ⟨q, ?_, hcore.d_reach goal q hq.symm, ?_⟩
  · show (dijkstraLoop adj goal nodes.dedup.length nodes.dedup
      (dijkstraInit start)).1 goal = ((q : ℚ) : WithTop ℚ)
    exact hq.symm
  · intro q2 hq2
    have hle2 := hopt q2 hq2
    rw [← hq] at hle2
    exact_mod_cast hle2

end AstarMap

namespace AstarMap

/-- **C1.** On every graph whose exposed edge costs are non-negative, with
an admissible heuristic (non-negative and never exceeding any walk cost to
the goal), on a node set closed under the adjacency and containing the
start, and for a goal reachable from the start: whenever the A* loop
returns, its total cost equals the total cost returned by
`Dijkstra.find_path`, and both equal the exact minimum walk cost (the
model computes in `ℚ`, so equality is exact rather than up to a
floating-point tolerance). -/
theorem astar_eq_dijkstra {V : Type} [LinearOrder V] (adj : V → List (V × ℚ))
    (h : V → ℚ) (nodes : List V) (start goal : V)
    (hnn : ∀ v : V, ∀ p ∈ adj v, 0 ≤ p.2)
    (hh : ∀ v : V, 0 ≤ h v)
    (hadm : ∀ (v : V) (c : ℚ), Reach adj v goal c → h v ≤ c)
    (hclosed : ∀ v ∈ nodes, ∀ p ∈ adj v, p.1 ∈ nodes)
    (hstart : start ∈ nodes) (c0 : ℚ) (hreach : Reach adj start goal c0)
    (fuel : ℕ) (path : List V) (c : WithTop ℚ)
    (hrun : astarFindPath fuel adj h start goal = some (path, c)) :
    c = (dijkstraFindPath adj nodes start goal).2 ∧
      ∃ q : ℚ, c = ((q : ℚ) : WithTop ℚ) ∧ Reach adj start goal q ∧
        ∀ q2 : ℚ, Reach adj start goal q2 → q ≤ q2 := by
  obtain ⟨qa, hqa, hra, hmina⟩ :=
    astarLoop_opt hh hadm fuel (astarInit start)
      (astarInit_AInv adj h start goal hh) path c hrun c0 hreach
  obtain ⟨qd, hqd, hrd, hmind⟩ := dijkstraFindPath_opt hnn hclosed hstart hreach
  have heq : qa = qd := le_antisymm (hmina qd hrd) (hmind qa hra)
  refine ⟨?_, qa, hqa, hra, hmina⟩
  rw [hqa, hqd, heq]

end AstarMap

namespace AstarMap

/-- Witness for `astar_eq_dijkstra`: the two-node graph with the single
edge `0 → 1` of cost `5`, the zero heuristic and A* fuel `3`; both
searches return the optimal cost `5`. -/
theorem astar_eq_dijkstra_witness :
    astarFindPath 3 lineAdj (fun v => (0 : ℚ)) 0 1 =
        some ([0, 1], ((5 : ℚ) : WithTop ℚ)) ∧
      ((5 : ℚ) : WithTop ℚ) = (dijkstraFindPath lineAdj [0, 1] 0 1).2 ∧
      Reach lineAdj 0 1 5 := by
  have hnn : ∀ v : ℕ, ∀ p ∈ lineAdj v, 0 ≤ p.2 := by
    intro v p hp
    by_cases hv : v = 0
    · rw [hv] at hp
      have hp2 : p ∈ [((1 : ℕ), (5 : ℚ))] := hp
      have hpe := List.mem_singleton.mp hp2
      rw [hpe]
      norm_num
    · have hp2 : p ∈ ([] : List (ℕ × ℚ)) := by
        have hemp : lineAdj v = [] := by
          unfold lineAdj
          rw [if_neg hv]
        rw [← hemp]
        exact hp
      exact absurd hp2 (List.not_mem_nil p)
  have hmem5 : ((1 : ℕ), (5 : ℚ)) ∈ lineAdj 0 := by
    show ((1 : ℕ), (5 : ℚ)) ∈ [((1 : ℕ), (5 : ℚ))]
    exact List.mem_singleton.mpr rfl
  have hreach : Reach lineAdj 0 1 5 := Reach.single hmem5
  have hclosed : ∀ v ∈ [0, 1], ∀ p ∈ lineAdj v, p.1 ∈ ([0, 1] : List ℕ) := by
    intro v hv p hp
    by_cases hv0 : v = 0
    · rw [hv0] at hp
      have hp2 : p ∈ [((1 : ℕ), (5 : ℚ))] := hp
      have hpe := List.mem_singleton.mp hp2
      rw [hpe]
      decide
    · have hp2 : p ∈ ([] : List (ℕ × ℚ)) := by
        have hemp : lineAdj v = [] := by
          unfold lineAdj
          rw [if_neg hv0]
        rw [← hemp]
        exact hp
      exact absurd hp2 (List.not_mem_nil p)
  have hrun : astarFindPath 3 lineAdj (fun v => (0 : ℚ)) 0 1 =
      some ([0, 1], ((5 : ℚ) : WithTop ℚ)) := by
    norm_num [astarFindPath, astarLoop, astarInit, popMin, heapMin, relaxAll,
      relaxOne, relaxUpd, gget, reconstructPath, lineAdj]
  obtain ⟨hcd, q, hq, hrq, hminq⟩ := astar_eq_dijkstra lineAdj (fun v => (0 : ℚ))
    [0, 1] 0 1 hnn (fun v => le_refl 0) (fun v c hr => Reach.nonneg hnn hr)
    hclosed (by decide) 5 hreach 3 [0, 1] ((5 : ℚ) : WithTop ℚ) hrun
  exact ⟨hrun, hcd, hreach⟩

end AstarMap
